import Mathlib

set_option maxHeartbeats 1000000

namespace ReplayBuffer

/-! Shallow embedding of src/common/replay_buffer.py (SegmentTree,
SumSegmentTree, MinSegmentTree, PrioritizedReplayBuffer, VecReplayBuffer).

Numeric values are modelled by the rationals: the Python code computes with
floats and every claim under study concerns the exact arithmetic the code
performs.  Python lists are modelled by Lean lists together with Python's
signed-index semantics.  The two recursions of the source that are not
structurally terminating (SegmentTree._reduce_helper and the descent loop of
SumSegmentTree.find_prefixsum_idx) carry an explicit fuel that provably
dominates every terminating run; a result of none means the Python call never
returns (it dies with a RecursionError).  The float exponentiations
priority ** alpha and x ** (-beta) are not rational-valued functions of a
rational argument; they are passed to the operations as explicit function
parameters, which the theorems constrain exactly as real exponentiation
behaves. -/

/-- Python list read l[i] with a default.  Every reachable read of the source
is in range, so the default never matters; it mirrors direct list indexing. -/
def getv {α : Type} (l : List α) (i : Nat) (d : α) : α := l.getD i d

/-- Python signed list indexing: index i addresses cell i when 0 ≤ i < len,
cell len + i when -len ≤ i < 0, and raises IndexError otherwise. -/
def pyIdx (n : Nat) (i : Int) : Option Nat :=
  if 0 ≤ i ∧ i < (n : Int) then some i.toNat
  else if -(n : Int) ≤ i ∧ i < 0 then some (i + n).toNat
  else none

/-- Python list assignment l[i] = v: IndexError (none) when the signed index
is out of range, otherwise the updated list. -/
def pyListSet {α : Type} (l : List α) (i : Int) (v : α) : Option (List α) :=
  (pyIdx l.length i).map (fun j => l.set j v)

/-- State of a SegmentTree: _capacity and the backing array _value of length
2 * capacity.  The combining operation and neutral element are duck-typed in
the source; they are passed to each operation explicitly, which keeps tree
states decidably comparable. -/
structure SegTree (α : Type) where
  capacity : Nat
  value : List α
deriving DecidableEq

/-- SegmentTree.__init__: _value = [neutral_element for _ in range(2 * capacity)]. -/
def SegTree.init {α : Type} (capacity : Nat) (neutral : α) : SegTree α :=
  ⟨capacity, List.replicate (2 * capacity) neutral⟩

/-- Leaf i of the tree: backing cell capacity + i (SegmentTree.__getitem__
without its range assert, used internally). -/
def SegTree.leafv {α : Type} (t : SegTree α) (i : Nat) (d : α) : α :=
  getv t.value (t.capacity + i) d

/-- SegmentTree.__getitem__(idx): assert 0 <= idx < _capacity, then read the
leaf cell. -/
def SegTree.getItem {α : Type} (t : SegTree α) (idx : Nat) (d : α) : Except String α :=
  if idx < t.capacity then .ok (t.leafv idx d) else .error "AssertionError"

/-- The ancestor-recomputation loop of SegmentTree.__setitem__ with explicit
fuel (the loop index at least halves per pass, so fuel equal to the starting
index always suffices; see updateLoop):
idx //= 2; while idx >= 1: _value[idx] = operation(_value[2*idx], _value[2*idx+1]);
idx //= 2. -/
def updateLoopF {α : Type} (op : α → α → α) (d : α) : Nat → List α → Nat → List α
  | 0, value, _ => value
  | fuel + 1, value, k =>
    if 1 ≤ k then
      updateLoopF op d fuel
        (value.set k (op (getv value (2 * k) d) (getv value (2 * k + 1) d))) (k / 2)
    else value

/-- The ancestor loop started at position k, with its always-sufficient
fuel. -/
def updateLoop {α : Type} (op : α → α → α) (d : α) (value : List α) (k : Nat) : List α :=
  updateLoopF op d k value k

/-- SegmentTree.__setitem__(idx, val).  The source does not validate idx: it
assigns _value[idx + capacity] with Python list semantics (IndexError exactly
when idx + capacity is outside [-2*capacity, 2*capacity)), then floor-divides
the position and recomputes ancestors while the position is at least 1.  On
IndexError the Python object is unchanged, hence the plain error result. -/
def SegTree.setItem {α : Type} (op : α → α → α) (d : α) (t : SegTree α) (idx : Int) (v : α) :
    Except String (SegTree α) :=
  match pyListSet t.value (idx + (t.capacity : Int)) v with
  | none => .error "IndexError"
  | some value1 =>
    .ok ⟨t.capacity, updateLoop op d value1 (Int.fdiv (idx + (t.capacity : Int)) 2).toNat⟩

/-- SegmentTree._reduce_helper with explicit fuel; bounds are inclusive,
exactly as in the source.  none models the infinite recursion the helper runs
into on empty query ranges. -/
def reduceHelper {α : Type} (op : α → α → α) (d : α) (value : List α) :
    Nat → Int → Int → Nat → Int → Int → Option α
  | 0, _, _, _, _, _ => none
  | fuel + 1, start, stop, node, nodeStart, nodeEnd =>
    if start = nodeStart ∧ stop = nodeEnd then some (getv value node d)
    else
      let mid := Int.fdiv (nodeStart + nodeEnd) 2
      if stop ≤ mid then reduceHelper op d value fuel start stop (2 * node) nodeStart mid
      else if mid + 1 ≤ start then
        reduceHelper op d value fuel start stop (2 * node + 1) (mid + 1) nodeEnd
      else
        match reduceHelper op d value fuel start mid (2 * node) nodeStart mid,
              reduceHelper op d value fuel (mid + 1) stop (2 * node + 1) (mid + 1) nodeEnd with
        | some a, some b => some (op a b)
        | _, _ => none

/-- SegmentTree.reduce(start, end): end defaults to _capacity, a negative end
is wrapped by += _capacity, then end -= 1 and the helper runs with inclusive
bounds from the root.  Fuel capacity + 1 dominates the recursion depth of
every terminating run (the node range halves at each level). -/
def SegTree.reduce {α : Type} (op : α → α → α) (d : α) (t : SegTree α)
    (start : Int) (stopOpt : Option Int) : Option α :=
  let e0 := stopOpt.getD (t.capacity : Int)
  let e1 := if e0 < 0 then e0 + t.capacity else e0
  reduceHelper op d t.value (t.capacity + 1) start (e1 - 1) 1 0 ((t.capacity : Int) - 1)

/-- The tree-consistency invariant (spec section 3): every internal node
(positions 1 .. capacity-1) caches the operation of its two children. -/
def SegTree.Inv {α : Type} (op : α → α → α) (d : α) (t : SegTree α) : Prop :=
  ∀ j : Nat, j < t.capacity → 1 ≤ j →
    getv t.value j d = op (getv t.value (2 * j) d) (getv t.value (2 * j + 1) d)

instance {α : Type} [DecidableEq α] (op : α → α → α) (d : α) (t : SegTree α) :
    Decidable (SegTree.Inv op d t) := by
  unfold SegTree.Inv; infer_instance

/-- Left-to-right fold of the operation over the n leaves lo, ..., lo+n-1,
starting from the neutral element: the reference semantics the spec gives for
reduce. -/
def leavesFold {α : Type} (op : α → α → α) (e d : α) (t : SegTree α) (lo n : Nat) : α :=
  ((List.range n).map (fun i => t.leafv (lo + i) d)).foldl op e

/-- Arithmetic sum of the leaves lo, ..., hi-1 of a sum tree. -/
def leafSum (t : SegTree ℚ) (lo hi : Nat) : ℚ :=
  ∑ i in Finset.Ico lo hi, t.leafv i 0

/-- The descent loop of SumSegmentTree.find_prefixsum_idx with explicit fuel:
while idx < _capacity, go to the left child when its cached value exceeds the
remaining prefixsum, otherwise subtract that value and go right; on exit
return idx - _capacity. -/
def findLoop : Nat → Nat → List ℚ → Nat → ℚ → Option Nat
  | 0, _, _, _, _ => none
  | fuel + 1, capacity, value, idx, p =>
    if idx < capacity then
      if p < getv value (2 * idx) 0 then findLoop fuel capacity value (2 * idx) p
      else findLoop fuel capacity value (2 * idx + 1) (p - getv value (2 * idx) 0)
    else some (idx - capacity)

/-- SumSegmentTree.find_prefixsum_idx(prefixsum).  The outer Option models
nontermination: of the sum() call inside the assert (sum() = reduce with
default bounds, which terminates on every well-formed tree) and of the
descent loop (fuel 2 * capacity dominates it: the node index strictly
increases and stays below 2 * capacity).  The inner value models
assert 0 <= prefixsum <= self.sum() + 1e-5. -/
def findPrefixSumIdx (t : SegTree ℚ) (p : ℚ) : Option (Except String Nat) :=
  match SegTree.reduce (· + ·) 0 t 0 none with
  | none => none
  | some s =>
    if 0 ≤ p ∧ p ≤ s + 1 / 100000 then
      (findLoop (2 * t.capacity) t.capacity t.value 1 p).map Except.ok
    else some (.error "AssertionError")

/-- Python min specialised to rationals extended with the +infinity neutral
element of MinSegmentTree: min(a, b) returns b exactly when b < a. -/
def tmin (a b : WithTop ℚ) : WithTop ℚ := if b < a then b else a

/-- State of PrioritizedReplayBuffer.  Transitions are opaque to every claim
under study, so only len(_storage) is tracked alongside the cursor, the two
trees and _max_priority. -/
structure PRB where
  maxsize : Nat
  storageLen : Nat
  nextIdx : Nat
  itSum : SegTree ℚ
  itMin : SegTree (WithTop ℚ)
  maxPriority : ℚ
deriving DecidableEq

/-- The loop it_capacity = 1; while it_capacity < size: it_capacity *= 2 of
PrioritizedReplayBuffer.__init__, with fuel size (the value at least doubles
each pass, so size passes more than suffice). -/
def itCapLoop : Nat → Nat → Nat → Nat
  | 0, _, cap => cap
  | fuel + 1, size, cap => if cap < size then itCapLoop fuel size (2 * cap) else cap

/-- it_capacity: the least power of two that is at least size. -/
def itCapacity (size : Nat) : Nat := itCapLoop size size 1

/-- PrioritizedReplayBuffer.__init__ (the base ReplayBuffer starts with an
empty storage and cursor 0; _max_priority = 1.0). -/
def PRB.init (size : Nat) : PRB :=
  { maxsize := size, storageLen := 0, nextIdx := 0,
    itSum := SegTree.init (itCapacity size) (0 : ℚ),
    itMin := SegTree.init (itCapacity size) (⊤ : WithTop ℚ),
    maxPriority := 1 }

/-- PrioritizedReplayBuffer.add: record idx = _next_idx, run ReplayBuffer.add
(append when _next_idx >= len(_storage), overwrite otherwise, then advance the
cursor mod _maxsize), then set both trees at idx to _max_priority ** _alpha,
supplied here as pa _max_priority.  A tree IndexError is propagated; it cannot
fire on well-formed states. -/
def PRB.add (pa : ℚ → ℚ) (b : PRB) : Except String PRB :=
  let idx := b.nextIdx
  let len1 := if b.storageLen ≤ b.nextIdx then b.storageLen + 1 else b.storageLen
  let next1 := (b.nextIdx + 1) % b.maxsize
  match SegTree.setItem (· + ·) 0 b.itSum (idx : Int) (pa b.maxPriority) with
  | .error e => .error e
  | .ok s =>
    match SegTree.setItem tmin ⊤ b.itMin (idx : Int) ((pa b.maxPriority : ℚ) : WithTop ℚ) with
    | .error e => .error e
    | .ok m =>
      .ok { b with storageLen := len1, nextIdx := next1, itSum := s, itMin := m }

/-- The loop of update_priorities.  Both asserts sit inside the loop, before
the two tree writes and the _max_priority update of the same pair.  An error
carries the buffer state at the moment the assert fires: the Python exception
leaves every mutation made by earlier iterations in place. -/
def updLoop (pa : ℚ → ℚ) (b : PRB) : List (Int × ℚ) → Except (String × PRB) PRB
  | [] => .ok b
  | (idx, priority) :: rest =>
    if ¬ 0 < priority then .error ("InvalidPriority", b)
    else if ¬ (0 ≤ idx ∧ idx < (b.storageLen : Int)) then .error ("IndexOutOfRange", b)
    else
      match SegTree.setItem (· + ·) 0 b.itSum idx (pa priority) with
      | .error e => .error (e, b)
      | .ok s =>
        match SegTree.setItem tmin ⊤ b.itMin idx ((pa priority : ℚ) : WithTop ℚ) with
        | .error e => .error (e, { b with itSum := s })
        | .ok m =>
          updLoop pa
            { b with itSum := s, itMin := m, maxPriority := max b.maxPriority priority } rest

/-- PrioritizedReplayBuffer.update_priorities: the length assert runs before
the loop; every per-pair assert runs inside it. -/
def PRB.updatePriorities (pa : ℚ → ℚ) (b : PRB) (idxes : List Int) (priorities : List ℚ) :
    Except (String × PRB) PRB :=
  if idxes.length = priorities.length then updLoop pa b (idxes.zip priorities)
  else .error ("LengthMismatch", b)

/-- The state a failing update_priorities call leaves behind, if it fails. -/
def errState (r : Except (String × PRB) PRB) : Option PRB :=
  match r with
  | .error (_, s) => some s
  | .ok _ => none

/-- The per-index loop of _sample_proportional: for each i in range(batch),
mass = random.random() * every_range_len + i * every_range_len (the i-th draw
of random.random() is supplied as randoms[i]), then find_prefixsum_idx. -/
def spLoop (t : SegTree ℚ) (every : ℚ) (randoms : List ℚ) :
    Nat → Nat → Option (Except String (List Nat))
  | _, 0 => some (.ok [])
  | i, n + 1 =>
    match findPrefixSumIdx t (randoms.getD i 0 * every + i * every) with
    | none => none
    | some (.error e) => some (.error e)
    | some (.ok idx) =>
      match spLoop t every randoms (i + 1) n with
      | none => none
      | some (.error e) => some (.error e)
      | some (.ok rest) => some (.ok (idx :: rest))

/-- PrioritizedReplayBuffer._sample_proportional(batch_size):
p_total = _it_sum.sum(0, len(_storage) - 1), every_range_len = p_total /
batch_size, then the per-index loop.  none models nontermination of the sum
call (it occurs exactly when the query range is empty); a zero batch size
raises ZeroDivisionError in Python. -/
def sampleProportional (b : PRB) (batch : Nat) (randoms : List ℚ) :
    Option (Except String (List Nat)) :=
  match SegTree.reduce (· + ·) 0 b.itSum 0 (some ((b.storageLen : Int) - 1)) with
  | none => none
  | some pTotal =>
    if batch = 0 then some (.error "ZeroDivisionError")
    else spLoop b.itSum (pTotal / batch) randoms 0 batch

/-- The weight vector and slot indices returned by
PrioritizedReplayBuffer.sample (the encoded transitions are opaque). -/
structure SampleOut where
  weights : List ℚ
  idxes : List Nat
deriving DecidableEq

/-- PrioritizedReplayBuffer.sample(batch_size): the proportional indices, then
it_sum = _it_sum.sum(), p_min = _it_min.min() / it_sum,
max_weight = (p_min * len(_storage)) ** (-beta), p_samples[i] = _it_sum[idx_i]
(a leaf read through __getitem__, with its assert) / it_sum, and
weights[i] = (p_samples[i] * len(_storage)) ** (-beta) / max_weight.  The
exponentiation x ** (-beta) is supplied as the function wexp.  A top minimum
(possible only with no populated slot) would make the weight arithmetic run
through float infinities, outside the rational model; it is mapped to none
and excluded by the hypotheses of every theorem below. -/
def PRB.sample (wexp : ℚ → ℚ) (b : PRB) (batch : Nat) (randoms : List ℚ) :
    Option (Except String SampleOut) :=
  match sampleProportional b batch randoms with
  | none => none
  | some (.error e) => some (.error e)
  | some (.ok idxes) =>
    match SegTree.reduce (· + ·) 0 b.itSum 0 none with
    | none => none
    | some itSumTotal =>
      match SegTree.reduce tmin ⊤ b.itMin 0 none with
      | none => none
      | some ⊤ => none
      | some ((pm : ℚ) : WithTop ℚ) =>
        let pMin := pm / itSumTotal
        let maxWeight := wexp (pMin * b.storageLen)
        if ∀ idx ∈ idxes, idx < b.itSum.capacity then
          some (.ok
            { weights := idxes.map (fun idx =>
                wexp ((getv b.itSum.value (b.itSum.capacity + idx) 0 / itSumTotal) *
                  b.storageLen) / maxWeight),
              idxes := idxes })
        else some (.error "AssertionError")

/-- Mask initialisation of VecReplayBuffer._stack_obs for one environment:
mask = ones(nsteps + 1); mask[:, 1:] = 1 - dones (dones has length nsteps). -/
def mask0 (dones : List ℚ) : List ℚ := 1 :: dones.map (fun x => 1 - x)

/-- One execution of mask[:, 1:] *= mask[:, :-1]: cell 0 is unchanged and cell
t+1 becomes mask[t+1] * mask[t].  NumPy ufuncs copy overlapping operands
first, so all products read the pre-update values. -/
def maskStep (m : List ℚ) : List ℚ :=
  match m with
  | [] => []
  | x :: xs => x :: List.zipWith (· * ·) xs (x :: xs)

/-- The mask after j executions of mask[:, 1:] *= mask[:, :-1]. -/
def maskIter (dones : List ℚ) : Nat → List ℚ
  | 0 => mask0 dones
  | j + 1 => maskStep (maskIter dones j)

/-- enc_obs[i : i + nsteps + 1]: the frame slice assigned to stack channel i
(for one environment; reads are in range whenever enc has its declared length
nstack + nsteps and i < nstack). -/
def chanFrames (nsteps : Nat) (enc : List ℚ) (i : Nat) : List ℚ :=
  (List.range (nsteps + 1)).map (fun t => enc.getD (i + t) 0)

/-- Per-environment state of the loop of _stack_obs: the output channel
slices obs[:, :, i*nc:(i+1)*nc] (indexed by stack index i) and the running
mask. -/
structure StackSt where
  obs : List (List ℚ)
  mask : List ℚ
deriving DecidableEq

/-- One iteration of the loop of _stack_obs at stack index i: assign the
frame slice to channel i; when i < nstack - 1 multiply the channel by the
current mask and then update the mask. -/
def stackStep (nstack nsteps : Nat) (enc : List ℚ) (s : StackSt) (i : Nat) : StackSt :=
  let chan := chanFrames nsteps enc i
  if i < nstack - 1 then
    { obs := s.obs.set i (List.zipWith (· * ·) chan s.mask), mask := maskStep s.mask }
  else
    { obs := s.obs.set i chan, mask := s.mask }

/-- for i in range(n - 1, -1, -1): f applied at i = n-1, ..., 0. -/
def downLoop {σ : Type} (f : σ → Nat → σ) : Nat → σ → σ
  | 0, s => s
  | i + 1, s => downLoop f i (f s i)

/-- VecReplayBuffer._stack_obs for one environment.  The operation is
elementwise across environments and pixels, so one rational stands for one
frame.  Returns the nstack output channels, each of length nsteps + 1:
channel i at step t holds the frame enc_obs[i + t], masked when
i < nstack - 1.  The initial np.zeros content of obs is irrelevant (every
channel is fully assigned before being read), here an empty placeholder. -/
def stackObs (nstack nsteps : Nat) (enc dones : List ℚ) : List (List ℚ) :=
  (downLoop (stackStep nstack nsteps enc) nstack
    ⟨List.replicate nstack [], mask0 dones⟩).obs

/-- Modelled from the spec (for the refutation of the claimed mask
recurrence): the cumulative mask with mask 0 = 1 and
mask t = mask (t-1) * (1 - done (t-1)) for t > 0. -/
def specCumMask (dones : List ℚ) : Nat → ℚ
  | 0 => 1
  | t + 1 => specCumMask dones t * (1 - dones.getD t 0)

/-- Modelled from the spec (for the refutation of C5): the stratified rule as
the spec words it, with the strata partitioning [0, T) where T is the total
priority mass of ALL len(_storage) populated slots.  It differs from
sampleProportional only in the total mass (and in having no divergent range
query). -/
def specSampleProportional (b : PRB) (batch : Nat) (randoms : List ℚ) :
    Option (Except String (List Nat)) :=
  let pTotal := leafSum b.itSum 0 b.storageLen
  if batch = 0 then some (.error "ZeroDivisionError")
  else spLoop b.itSum (pTotal / batch) randoms 0 batch

theorem getv_set_self {α : Type} {l : List α} {k : Nat} {v d : α} (h : k < l.length) :
    getv (l.set k v) k d = v := by
  unfold getv
  rw [List.getD_eq_getElem _ _ (by simpa using h)]
  simp

theorem getv_set_ne {α : Type} {l : List α} {k j : Nat} {v d : α} (h : k ≠ j) :
    getv (l.set k v) j d = getv l j d := by
  unfold getv
  by_cases hj : j < l.length
  · rw [List.getD_eq_getElem _ _ (by simpa using hj), List.getD_eq_getElem _ _ hj]
    exact List.getElem_set_ne h (by simpa using hj)
  · rw [List.getD_eq_default _ _ (by simpa using Nat.le_of_not_lt hj),
      List.getD_eq_default _ _ (Nat.le_of_not_lt hj)]

theorem getv_replicate {α : Type} {n j : Nat} {e d : α} (h : j < n) :
    getv (List.replicate n e) j d = e := by
  unfold getv
  rw [List.getD_eq_getElem _ _ (by simpa using h)]
  exact List.getElem_replicate e (by simpa using h)

/-- Positions visited by the ancestor loop started at k: k, k/2, ..., 1. -/
def chain : Nat → List Nat
  | 0 => []
  | k + 1 => (k + 1) :: chain ((k + 1) / 2)
  termination_by k => k
  decreasing_by exact Nat.div_lt_self (by omega) (by omega)

theorem chain_bounds {k : Nat} : ∀ {j : Nat}, j ∈ chain k → 1 ≤ j ∧ j ≤ k := by
  induction k using Nat.strong_induction_on with
  | _ k ih =>
    intro j hj
    match k with
    | 0 => simp [chain] at hj
    | k + 1 =>
      rw [chain] at hj
      rcases List.mem_cons.mp hj with h | h
      · omega
      · have := ih ((k + 1) / 2) (Nat.div_lt_self (by omega) (by omega)) h
        omega

theorem chain_head {k : Nat} (h : 1 ≤ k) : k ∈ chain k := by
  match k with
  | k + 1 => rw [chain]; exact List.mem_cons_self _ _

theorem updateLoopF_length {α : Type} (op : α → α → α) (d : α) :
    ∀ (fuel k : Nat) (value : List α), (updateLoopF op d fuel value k).length = value.length := by
  intro fuel
  induction fuel with
  | zero => intro k value; rfl
  | succ fuel ih =>
    intro k value
    by_cases h : 1 ≤ k
    · simp only [updateLoopF, h, if_true, ih]
      simp
    · simp [updateLoopF, h]

theorem updateLoop_length {α : Type} (op : α → α → α) (d : α)
    (k : Nat) (value : List α) : (updateLoop op d value k).length = value.length :=
  updateLoopF_length op d k k value

theorem updateLoopF_off {α : Type} (op : α → α → α) (d : α) :
    ∀ (fuel k : Nat) (value : List α) (p : Nat), k ≤ fuel → p ∉ chain k →
      getv (updateLoopF op d fuel value k) p d = getv value p d := by
  intro fuel
  induction fuel with
  | zero => intro k value p _ _; rfl
  | succ fuel ih =>
    intro k value p hfuel hp
    by_cases h : 1 ≤ k
    · simp only [updateLoopF, h, if_true]
      have hp2 : p ∉ chain (k / 2) := by
        intro hmem
        exact hp (by
          match k, h with
          | k + 1, _ => rw [chain]; exact List.mem_cons_of_mem _ hmem)
      rw [ih (k / 2) _ p (by omega) hp2]
      have hpk : k ≠ p := by
        intro he; exact hp (he ▸ chain_head h)
      exact getv_set_ne hpk
    · simp [updateLoopF, h]

theorem updateLoop_off {α : Type} (op : α → α → α) (d : α)
    (k : Nat) (value : List α) (p : Nat) (hp : p ∉ chain k) :
    getv (updateLoop op d value k) p d = getv value p d :=
  updateLoopF_off op d k k value p (le_refl k) hp

theorem updateLoopF_inv {α : Type} (op : α → α → α) (d : α) (C : Nat) :
    ∀ (fuel k : Nat) (value : List α), k ≤ fuel → k < C → value.length = 2 * C →
    (∀ j : Nat, 1 ≤ j → j < C → j ∉ chain k →
       getv value j d = op (getv value (2 * j) d) (getv value (2 * j + 1) d)) →
    ∀ j : Nat, 1 ≤ j → j < C →
      getv (updateLoopF op d fuel value k) j d =
        op (getv (updateLoopF op d fuel value k) (2 * j) d)
           (getv (updateLoopF op d fuel value k) (2 * j + 1) d) := by
  intro fuel
  induction fuel with
  | zero =>
    intro k value hfuel hkC hlen hpre j hj1 hjC
    exact hpre j hj1 hjC (by simp [show k = 0 by omega, chain])
  | succ fuel ih =>
    intro k value hfuel hkC hlen hpre j hj1 hjC
    by_cases h : 1 ≤ k
    · simp only [updateLoopF, h, if_true]
      refine ih (k / 2) _ (by omega) (by omega) (by simpa using hlen) ?_ j hj1 hjC
      intro j2 hj21 hj2C hj2chain
      by_cases hjk : j2 = k
      · subst hjk
        rw [getv_set_self (by omega),
          getv_set_ne (by omega), getv_set_ne (by omega)]
      · have hj2chaink : j2 ∉ chain k := by
          intro hmem
          match k, h with
          | k + 1, _ =>
            rw [chain] at hmem
            rcases List.mem_cons.mp hmem with h2 | h2
            · exact hjk h2
            · exact hj2chain h2
        have hc1 : k ≠ 2 * j2 := by
          intro he
          have : j2 = k / 2 := by omega
          exact hj2chain (this ▸ chain_head (by omega))
        have hc2 : k ≠ 2 * j2 + 1 := by
          intro he
          have : j2 = k / 2 := by omega
          exact hj2chain (this ▸ chain_head (by omega))
        rw [getv_set_ne (by omega), getv_set_ne hc1, getv_set_ne hc2]
        exact hpre j2 hj21 hj2C hj2chaink
    · simp only [updateLoopF, h, if_false]
      exact hpre j hj1 hjC (by simp [show k = 0 by omega, chain])

theorem updateLoop_inv {α : Type} (op : α → α → α) (d : α) (C : Nat)
    (k : Nat) (value : List α) (hkC : k < C) (hlen : value.length = 2 * C)
    (hpre : ∀ j : Nat, 1 ≤ j → j < C → j ∉ chain k →
       getv value j d = op (getv value (2 * j) d) (getv value (2 * j + 1) d)) :
    ∀ j : Nat, 1 ≤ j → j < C →
      getv (updateLoop op d value k) j d =
        op (getv (updateLoop op d value k) (2 * j) d)
           (getv (updateLoop op d value k) (2 * j + 1) d) :=
  updateLoopF_inv op d C k k value (le_refl k) hkC hlen hpre

theorem setItem_ok {α : Type} (op : α → α → α) (d : α) (t : SegTree α) {C : Nat}
    (hC : t.capacity = C) (hlen : t.value.length = 2 * C) (hC1 : 1 ≤ C)
    {i : Nat} (hi : i < C) (v : α) :
    SegTree.setItem op d t (i : Int) v =
      .ok ⟨C, updateLoop op d (t.value.set (i + C) v) ((i + C) / 2)⟩ := by
  have hidx : pyIdx t.value.length ((i : Int) + t.capacity) = some (i + C) := by
    unfold pyIdx
    rw [hC, hlen]
    have h1 : (0 : Int) ≤ (i : Int) + C := by positivity
    have h2 : (i : Int) + C < ((2 * C : Nat) : Int) := by push_cast; omega
    simp only [h1, h2, and_true, if_true, true_and]
    have h3 : ((i : Int) + (C : Int)).toNat = i + C := by omega
    rw [h3]
  have hps : pyListSet t.value ((i : Int) + t.capacity) v = some (t.value.set (i + C) v) := by
    unfold pyListSet; rw [hidx]; rfl
  unfold SegTree.setItem
  rw [hps]
  simp only [hC]
  have harg : (Int.fdiv ((i : Int) + (C : Int)) 2).toNat = (i + C) / 2 := by
    rw [Int.fdiv_eq_ediv _ (by omega)]
    omega
  rw [harg]

theorem setItem_oob {α : Type} (op : α → α → α) (d : α) (t : SegTree α) {C : Nat}
    (hC : t.capacity = C) (hlen : t.value.length = 2 * C)
    {idx : Int} (hidx : (C : Int) ≤ idx) (v : α) :
    SegTree.setItem op d t idx v = .error "IndexError" := by
  have h : pyIdx t.value.length (idx + t.capacity) = none := by
    unfold pyIdx
    rw [hC, hlen]
    rw [if_neg (by push_cast; omega), if_neg (by push_cast; omega)]
  have hps : pyListSet t.value (idx + (t.capacity : Int)) v = none := by
    unfold pyListSet; rw [h]; rfl
  unfold SegTree.setItem
  rw [hps]

theorem not_mem_chain_of_gt {k p : Nat} (h : k < p) : p ∉ chain k := by
  intro hmem
  have := chain_bounds hmem
  omega

theorem setItem_facts {α : Type} (op : α → α → α) (d : α) (t : SegTree α) {C : Nat}
    (hC : t.capacity = C) (hlen : t.value.length = 2 * C) (hC1 : 1 ≤ C)
    {i : Nat} (hi : i < C) (v : α) :
    ∃ t2 : SegTree α, SegTree.setItem op d t (i : Int) v = .ok t2 ∧
      t2.capacity = C ∧ t2.value.length = 2 * C ∧
      t2.leafv i d = v ∧
      (∀ j : Nat, j ≠ i → t2.leafv j d = t.leafv j d) ∧
      (SegTree.Inv op d t → SegTree.Inv op d t2) := by
  refine ⟨_, setItem_ok op d t hC hlen hC1 hi v, rfl, ?_, ?_, ?_, ?_⟩
  · show (updateLoop op d (t.value.set (i + C) v) ((i + C) / 2)).length = 2 * C
    rw [updateLoop_length]
    simp [hlen]
  · show getv (updateLoop op d (t.value.set (i + C) v) ((i + C) / 2)) (C + i) d = v
    rw [updateLoop_off op d _ _ _ (not_mem_chain_of_gt (by omega))]
    rw [show C + i = i + C by omega]
    exact getv_set_self (by omega)
  · intro j hj
    show getv (updateLoop op d (t.value.set (i + C) v) ((i + C) / 2)) (C + j) d = t.leafv j d
    rw [updateLoop_off op d _ _ _ (not_mem_chain_of_gt (by omega))]
    rw [getv_set_ne (by omega)]
    simp [SegTree.leafv, hC]
  · intro hInv j hjC hj1
    show getv (updateLoop op d (t.value.set (i + C) v) ((i + C) / 2)) j d = _
    refine updateLoop_inv op d C _ _ (by omega) (by simp [hlen]) ?_ j hj1 (by simpa using hjC)
    intro j2 hj21 hj2C hj2chain
    have hc0 : i + C ≠ j2 := by omega
    have hc1 : i + C ≠ 2 * j2 := by
      intro he
      exact hj2chain (by
        have hj2 : j2 = (i + C) / 2 := by omega
        rw [hj2]; exact chain_head (by omega))
    have hc2 : i + C ≠ 2 * j2 + 1 := by
      intro he
      exact hj2chain (by
        have hj2 : j2 = (i + C) / 2 := by omega
        rw [hj2]; exact chain_head (by omega))
    rw [getv_set_ne hc0, getv_set_ne hc1, getv_set_ne hc2]
    exact hInv j2 (by omega) hj21

/-- One step of a sequence of set calls (errors leave the tree unchanged,
exactly as the Python exception does). -/
def setStep {α : Type} (op : α → α → α) (d : α) (s : SegTree α) (c : Nat × α) : SegTree α :=
  match SegTree.setItem op d s (c.1 : Int) c.2 with
  | .ok s2 => s2
  | .error _ => s

/-- A finite sequence of set(i, v) calls, applied left to right. -/
def applySets {α : Type} (op : α → α → α) (d : α) (t : SegTree α)
    (calls : List (Nat × α)) : SegTree α :=
  calls.foldl (setStep op d) t

theorem applySets_facts {α : Type} (op : α → α → α) (d : α) {C : Nat} (hC1 : 1 ≤ C) :
    ∀ (calls : List (Nat × α)) (t : SegTree α), t.capacity = C → t.value.length = 2 * C →
      SegTree.Inv op d t → (∀ x ∈ calls, x.1 < C) →
      (applySets op d t calls).capacity = C ∧
      (applySets op d t calls).value.length = 2 * C ∧
      SegTree.Inv op d (applySets op d t calls) := by
  intro calls
  induction calls with
  | nil => intro t h1 h2 h3 _; exact ⟨h1, h2, h3⟩
  | cons cl rest ih =>
    intro t h1 h2 h3 hv
    obtain ⟨t2, hok, ht2C, ht2len, _, _, hinv⟩ :=
      setItem_facts op d t h1 h2 hC1 (hv cl (List.mem_cons_self cl rest)) cl.2
    have hstep : setStep op d t cl = t2 := by
      unfold setStep; rw [hok]
    have hfold : applySets op d t (cl :: rest) = applySets op d t2 rest := by
      unfold applySets
      rw [List.foldl_cons, hstep]
    rw [hfold]
    exact ih t2 ht2C ht2len (hinv h3) (fun x hx => hv x (List.mem_cons_of_mem cl hx))

theorem init_Inv {α : Type} (op : α → α → α) (e : α) (hee : op e e = e) (C : Nat) :
    SegTree.Inv op e (SegTree.init C e) := by
  intro j hjC hj1
  have hjC2 : j < C := hjC
  show getv (List.replicate (2 * C) e) j e =
    op (getv (List.replicate (2 * C) e) (2 * j) e) (getv (List.replicate (2 * C) e) (2 * j + 1) e)
  rw [getv_replicate (by omega), getv_replicate (by omega), getv_replicate (by omega)]
  exact hee.symm

/-- C1 (confirmed): for every SegmentTree built with a power-of-two capacity,
an associative operation and its neutral element, and every finite sequence
of set(i, v) calls with indices in [0, capacity), the tree reached satisfies
value[k] = operation(value[2k], value[2k+1]) at every internal node k.
Quantifying over all valid call lists covers the state after each call of a
longer sequence (every prefix is such a list).  Only the identity law of the
neutral element is needed (it makes the freshly initialised tree consistent);
associativity plays no role in this invariant. -/
theorem C1_tree_consistency {α : Type} (op : α → α → α) (e : α)
    (hneutral : ∀ x : α, op e x = x) (c C : Nat) (hCpow : C = 2 ^ c)
    (calls : List (Nat × α)) (hvalid : ∀ x ∈ calls, x.1 < C) :
    SegTree.Inv op e (applySets op e (SegTree.init C e) calls) := by
  have hC1 : 1 ≤ C := by rw [hCpow]; exact Nat.one_le_pow c 2 (by norm_num)
  exact (applySets_facts op e hC1 calls _ rfl (by simp [SegTree.init])
    (init_Inv op e (hneutral e) C) hvalid).2.2

/-- Witness for C1: a capacity-4 sum tree (rational addition, neutral 0)
after the calls set(0, 5), set(2, 7), set(0, 3). -/
theorem C1_tree_consistency_witness :
    SegTree.Inv (· + ·) (0 : ℚ) (applySets (· + ·) 0 (SegTree.init 4 0)
      [(0, 5), (2, 7), (0, 3)]) :=
  C1_tree_consistency (· + ·) 0 (fun x => zero_add x) 2 4 (by norm_num)
    [(0, 5), (2, 7), (0, 3)] (by decide)

/-- C8 counterexample: the claim says every set with an index outside
[0, capacity) fails with an index error and leaves the tree unchanged; but
set(-1, 5) on a fresh capacity-2 sum tree succeeds and silently overwrites
backing cell 1 (the root), because __setitem__ validates nothing and Python
list indexing accepts negative positions. -/
theorem C8_counterexample :
    SegTree.setItem (· + ·) (0 : ℚ) (SegTree.init 2 0) (-1) 5 =
      .ok ⟨2, [0, 5, 0, 0]⟩ ∧
    (⟨2, [0, 5, 0, 0]⟩ : SegTree ℚ) ≠ SegTree.init 2 0 := by
  constructor
  · rfl
  · decide

theorem setItem_neg_ok {α : Type} (op : α → α → α) (d : α) (t : SegTree α) {C : Nat}
    (hC : t.capacity = C) (hlen : t.value.length = 2 * C)
    {idx : Int} (hge : -(C : Int) ≤ idx) (hneg : idx < 0) (v : α) :
    ∃ t2 : SegTree α, SegTree.setItem op d t idx v = .ok t2 := by
  have hidx : pyIdx t.value.length (idx + t.capacity) = some (idx + (C : Int)).toNat := by
    unfold pyIdx
    rw [hC, hlen]
    rw [if_pos (by constructor <;> [omega; (push_cast; omega)])]
  have hps : pyListSet t.value (idx + (t.capacity : Int)) v =
      some (t.value.set (idx + (C : Int)).toNat v) := by
    unfold pyListSet; rw [hidx]; rfl
  unfold SegTree.setItem
  rw [hps]
  exact ⟨_, rfl⟩

/-- C8 amended: set(index, value) with index in [0, capacity) writes the leaf
and recomputes every ancestor, restoring the tree invariant; set with
index ≥ capacity fails with an IndexError, leaving the tree unchanged (the
failing assignment happens before any mutation); but indices in
[-capacity, 0) are NOT rejected: the call succeeds and silently overwrites
backing cell capacity + index, an internal node. -/
theorem C8_set_amended {α : Type} (op : α → α → α) (d : α) (t : SegTree α)
    (C : Nat) (hC : t.capacity = C) (hlen : t.value.length = 2 * C) (hC1 : 1 ≤ C) :
    (∀ i : Nat, i < C → ∀ v : α, ∃ t2 : SegTree α,
        SegTree.setItem op d t (i : Int) v = .ok t2 ∧
        t2.leafv i d = v ∧ (∀ j : Nat, j ≠ i → t2.leafv j d = t.leafv j d) ∧
        (SegTree.Inv op d t → SegTree.Inv op d t2)) ∧
    (∀ idx : Int, (C : Int) ≤ idx → ∀ v : α,
        SegTree.setItem op d t idx v = .error "IndexError") ∧
    (∀ idx : Int, -(C : Int) ≤ idx → idx < 0 → ∀ v : α,
        ∃ t2 : SegTree α, SegTree.setItem op d t idx v = .ok t2) := by
  refine ⟨?_, ?_, ?_⟩
  · intro i hi v
    obtain ⟨t2, hok, _, _, hleaf, hothers, hinv⟩ := setItem_facts op d t hC hlen hC1 hi v
    exact ⟨t2, hok, hleaf, hothers, hinv⟩
  · intro idx hge v
    exact setItem_oob op d t hC hlen hge v
  · intro idx hge hneg v
    exact setItem_neg_ok op d t hC hlen hge hneg v

/-- Witness for the amended C8 at a fresh capacity-4 sum tree: set(2, 9)
succeeds, and set(7, 3) fails with an IndexError. -/
theorem C8_set_amended_witness :
    (∃ t2 : SegTree ℚ, SegTree.setItem (· + ·) 0 (SegTree.init 4 0) (2 : Int) 9 = .ok t2) ∧
    SegTree.setItem (· + ·) (0 : ℚ) (SegTree.init 4 0) 7 3 = .error "IndexError" := by
  constructor
  · obtain ⟨t2, hok, -, -, -⟩ :=
      (C8_set_amended (· + ·) (0 : ℚ) (SegTree.init 4 0) 4 rfl (by simp [SegTree.init])
        (by norm_num)).1 2 (by norm_num) 9
    exact ⟨t2, hok⟩
  · exact (C8_set_amended (· + ·) (0 : ℚ) (SegTree.init 4 0) 4 rfl (by simp [SegTree.init])
      (by norm_num)).2.1 7 (by norm_num) 3

theorem foldl_op_pull {α : Type} (op : α → α → α)
    (hassoc : ∀ x y z : α, op (op x y) z = op x (op y z)) :
    ∀ (l : List α) (a b : α), List.foldl op (op a b) l = op a (List.foldl op b l) := by
  intro l
  induction l with
  | nil => intro a b; rfl
  | cons x xs ih =>
    intro a b
    simp only [List.foldl_cons]
    rw [hassoc, ih]

theorem foldl_op_concat {α : Type} (op : α → α → α) (e : α)
    (hassoc : ∀ x y z : α, op (op x y) z = op x (op y z))
    (hLe : ∀ x : α, op e x = x) (hRe : ∀ x : α, op x e = x)
    (l1 l2 : List α) :
    op (List.foldl op e l1) (List.foldl op e l2) = List.foldl op e (l1 ++ l2) := by
  rw [List.foldl_append]
  cases l2 with
  | nil => exact hRe _
  | cons x xs =>
    simp only [List.foldl_cons]
    rw [hLe, foldl_op_pull op hassoc]

theorem leavesFold_single {α : Type} (op : α → α → α) (e d : α)
    (hLe : ∀ x : α, op e x = x) (t : SegTree α) (lo : Nat) :
    leavesFold op e d t lo 1 = t.leafv lo d := by
  unfold leavesFold
  rw [show List.range 1 = [0] from rfl]
  simp only [List.map_cons, List.map_nil, List.foldl_cons, List.foldl_nil, Nat.add_zero]
  exact hLe _

theorem leavesFold_split {α : Type} (op : α → α → α) (e d : α)
    (hassoc : ∀ x y z : α, op (op x y) z = op x (op y z))
    (hLe : ∀ x : α, op e x = x) (hRe : ∀ x : α, op x e = x)
    (t : SegTree α) (lo m n : Nat) :
    leavesFold op e d t lo (m + n) =
      op (leavesFold op e d t lo m) (leavesFold op e d t (lo + m) n) := by
  unfold leavesFold
  rw [List.range_add, List.map_append, ← foldl_op_concat op e hassoc hLe hRe]
  congr 2
  rw [List.map_map]
  congr 1
  funext i
  show t.leafv (lo + (m + i)) d = t.leafv (lo + m + i) d
  rw [Nat.add_assoc]

theorem subtree_fold {α : Type} (op : α → α → α) (e d : α)
    (hassoc : ∀ x y z : α, op (op x y) z = op x (op y z))
    (hLe : ∀ x : α, op e x = x) (hRe : ∀ x : α, op x e = x)
    (t : SegTree α) (c : Nat) (hC : t.capacity = 2 ^ c) (hInv : SegTree.Inv op d t) :
    ∀ dl : Nat, dl ≤ c → ∀ k : Nat, 2 ^ c ≤ k * 2 ^ dl → k * 2 ^ dl < 2 * 2 ^ c →
      getv t.value k d = leavesFold op e d t (k * 2 ^ dl - 2 ^ c) (2 ^ dl) := by
  intro dl
  induction dl with
  | zero =>
    intro _ k hk1 hk2
    simp only [pow_zero, Nat.mul_one] at hk1 hk2 ⊢
    rw [leavesFold_single op e d hLe]
    show getv t.value k d = getv t.value (t.capacity + (k - 2 ^ c)) d
    rw [hC, show 2 ^ c + (k - 2 ^ c) = k by omega]
  | succ dl ih =>
    intro hdl k hk1 hk2
    have hone : 1 ≤ 2 ^ c := Nat.one_le_pow c 2 (by norm_num)
    have hs1 : 1 ≤ 2 ^ dl := Nat.one_le_pow dl 2 (by norm_num)
    have hps : 2 ^ (dl + 1) = 2 ^ dl + 2 ^ dl := by rw [pow_succ]; omega
    have hk0 : 1 ≤ k := by
      rcases Nat.eq_zero_or_pos k with h | h
      · subst h; simp at hk1
      · omega
    have hpow2 : 2 ^ (c - dl) * 2 ^ (dl + 1) = 2 * 2 ^ c := by
      rw [← pow_add, show c - dl + (dl + 1) = c + 1 by omega, pow_succ]
      ring
    have hkC : k < 2 ^ c := by
      by_contra h
      push_neg at h
      have h1 : 2 ^ c * 2 ^ (dl + 1) ≤ k * 2 ^ (dl + 1) := Nat.mul_le_mul_right _ h
      have h2 : 2 ≤ 2 ^ (dl + 1) := by
        calc (2 : Nat) = 2 ^ 1 := by norm_num
        _ ≤ 2 ^ (dl + 1) := Nat.pow_le_pow_right (by norm_num) (by omega)
      have h3 : 2 * 2 ^ c ≤ 2 ^ c * 2 ^ (dl + 1) := by
        calc 2 * 2 ^ c = 2 ^ c * 2 := by ring
        _ ≤ 2 ^ c * 2 ^ (dl + 1) := Nat.mul_le_mul_left _ h2
      omega
    have hcd : k < 2 ^ (c - dl) := by
      by_contra h
      push_neg at h
      have h1 : 2 ^ (c - dl) * 2 ^ (dl + 1) ≤ k * 2 ^ (dl + 1) := Nat.mul_le_mul_right _ h
      omega
    have hub : k * 2 ^ (dl + 1) + 2 ^ dl < 2 * 2 ^ c := by
      have h1 : (k + 1) * 2 ^ (dl + 1) ≤ 2 ^ (c - dl) * 2 ^ (dl + 1) :=
        Nat.mul_le_mul_right _ (by omega)
      have h3 : (k + 1) * 2 ^ (dl + 1) = k * 2 ^ (dl + 1) + 2 ^ (dl + 1) := by ring
      omega
    have hlc : 2 * k * 2 ^ dl = k * 2 ^ (dl + 1) := by rw [pow_succ]; ring
    have hrc : (2 * k + 1) * 2 ^ dl = k * 2 ^ (dl + 1) + 2 ^ dl := by rw [pow_succ]; ring
    have hInvk := hInv k (by rw [hC]; exact hkC) hk0
    have hL := ih (by omega) (2 * k) (by omega) (by omega)
    have hR := ih (by omega) (2 * k + 1) (by omega) (by omega)
    have hsplit : leavesFold op e d t (k * 2 ^ (dl + 1) - 2 ^ c) (2 ^ (dl + 1)) =
        op (leavesFold op e d t (k * 2 ^ (dl + 1) - 2 ^ c) (2 ^ dl))
          (leavesFold op e d t (k * 2 ^ (dl + 1) - 2 ^ c + 2 ^ dl) (2 ^ dl)) := by
      nth_rewrite 2 [hps]
      exact leavesFold_split op e d hassoc hLe hRe t _ _ _
    rw [hInvk, hL, hR, hsplit]
    rw [show 2 * k * 2 ^ dl - 2 ^ c = k * 2 ^ (dl + 1) - 2 ^ c by omega,
      show (2 * k + 1) * 2 ^ dl - 2 ^ c = k * 2 ^ (dl + 1) - 2 ^ c + 2 ^ dl by omega]

theorem node_bounds {c dl k : Nat} (hdl : dl + 1 ≤ c)
    (hk1 : 2 ^ c ≤ k * 2 ^ (dl + 1)) (hk2 : k * 2 ^ (dl + 1) < 2 * 2 ^ c) :
    1 ≤ k ∧ k < 2 ^ c ∧ k * 2 ^ (dl + 1) + 2 ^ dl < 2 * 2 ^ c ∧
    k * 2 ^ (dl + 1) + 2 ^ (dl + 1) ≤ 2 * 2 ^ c ∧
    2 * k * 2 ^ dl = k * 2 ^ (dl + 1) ∧ (2 * k + 1) * 2 ^ dl = k * 2 ^ (dl + 1) + 2 ^ dl := by
  have hone : 1 ≤ 2 ^ c := Nat.one_le_pow c 2 (by norm_num)
  have hs1 : 1 ≤ 2 ^ dl := Nat.one_le_pow dl 2 (by norm_num)
  have hpow2 : 2 ^ (c - dl) * 2 ^ (dl + 1) = 2 * 2 ^ c := by
    rw [← pow_add, show c - dl + (dl + 1) = c + 1 by omega, pow_succ]
    ring
  have hk0 : 1 ≤ k := by
    by_contra h
    have hk00 : k = 0 := by omega
    subst hk00
    simp at hk1
  have h2s : 2 ≤ 2 ^ (dl + 1) := by
    calc (2 : Nat) = 2 ^ 1 := by norm_num
    _ ≤ 2 ^ (dl + 1) := Nat.pow_le_pow_right (by norm_num) (by omega)
  have hkC : k < 2 ^ c := by
    by_contra h
    push_neg at h
    have h1 : 2 ^ c * 2 ^ (dl + 1) ≤ k * 2 ^ (dl + 1) := Nat.mul_le_mul_right _ h
    have h3 : 2 * 2 ^ c ≤ 2 ^ c * 2 ^ (dl + 1) := by
      calc 2 * 2 ^ c = 2 ^ c * 2 := by ring
      _ ≤ 2 ^ c * 2 ^ (dl + 1) := Nat.mul_le_mul_left _ h2s
    omega
  have hcd : k < 2 ^ (c - dl) := by
    by_contra h
    push_neg at h
    have h1 : 2 ^ (c - dl) * 2 ^ (dl + 1) ≤ k * 2 ^ (dl + 1) := Nat.mul_le_mul_right _ h
    omega
  have hub : k * 2 ^ (dl + 1) + 2 ^ dl < 2 * 2 ^ c := by
    have h1 : (k + 1) * 2 ^ (dl + 1) ≤ 2 ^ (c - dl) * 2 ^ (dl + 1) :=
      Nat.mul_le_mul_right _ (by omega)
    have h3 : (k + 1) * 2 ^ (dl + 1) = k * 2 ^ (dl + 1) + 2 ^ (dl + 1) := by ring
    have h4 : (2 : Nat) ^ (dl + 1) = 2 ^ dl + 2 ^ dl := by rw [pow_succ]; omega
    omega
  have hub2 : k * 2 ^ (dl + 1) + 2 ^ (dl + 1) ≤ 2 * 2 ^ c := by
    have h1 : (k + 1) * 2 ^ (dl + 1) ≤ 2 ^ (c - dl) * 2 ^ (dl + 1) :=
      Nat.mul_le_mul_right _ (by omega)
    have h3 : (k + 1) * 2 ^ (dl + 1) = k * 2 ^ (dl + 1) + 2 ^ (dl + 1) := by ring
    omega
  refine ⟨hk0, hkC, hub, hub2, by rw [pow_succ]; ring, by rw [pow_succ]; ring⟩

theorem reduceHelper_correct {α : Type} (op : α → α → α) (e d : α)
    (hassoc : ∀ x y z : α, op (op x y) z = op x (op y z))
    (hLe : ∀ x : α, op e x = x) (hRe : ∀ x : α, op x e = x)
    (t : SegTree α) (c : Nat) (hC : t.capacity = 2 ^ c) (hInv : SegTree.Inv op d t) :
    ∀ dl : Nat, dl ≤ c → ∀ fuel : Nat, dl + 1 ≤ fuel →
    ∀ k a stN enN : Nat, 2 ^ c ≤ k * 2 ^ dl → k * 2 ^ dl < 2 * 2 ^ c →
      a = k * 2 ^ dl - 2 ^ c →
      a ≤ stN → stN ≤ enN → enN + 1 ≤ a + 2 ^ dl →
      reduceHelper op d t.value fuel (stN : Int) (enN : Int) k
        (a : Int) ((a : Int) + ((2 ^ dl : Nat) : Int) - 1) =
        some (leavesFold op e d t stN (enN + 1 - stN)) := by
  intro dl
  induction dl with
  | zero =>
    intro hdl fuel hfuel k a stN enN hk1 hk2 ha hast hsten henb
    match fuel, hfuel with
    | fuel + 1, _ =>
      have hs : (2 : Nat) ^ 0 = 1 := pow_zero 2
      have hsteq : stN = a := by omega
      have heneq : enN = a := by omega
      rw [reduceHelper]
      rw [if_pos (show (stN : Int) = (a : Int) ∧
          (enN : Int) = (a : Int) + ((2 ^ 0 : Nat) : Int) - 1 by constructor <;> omega)]
      have hsf := subtree_fold op e d hassoc hLe hRe t c hC hInv 0 (by omega) k hk1 hk2
      rw [hsf]
      rw [show k * 2 ^ 0 - 2 ^ c = stN by omega, show enN + 1 - stN = 2 ^ 0 by omega]
  | succ dl ih =>
    intro hdl fuel hfuel k a stN enN hk1 hk2 ha hast hsten henb
    match fuel, hfuel with
    | fuel + 1, hfuel =>
      have hone : 1 ≤ 2 ^ c := Nat.one_le_pow c 2 (by norm_num)
      have hs1 : 1 ≤ 2 ^ dl := Nat.one_le_pow dl 2 (by norm_num)
      have hps : (2 : Nat) ^ (dl + 1) = 2 ^ dl + 2 ^ dl := by rw [pow_succ]; omega
      obtain ⟨hk0, hkC, hub, hub2, hlc, hrc⟩ := node_bounds hdl hk1 hk2
      rw [reduceHelper]
      by_cases hbase :
          (stN : Int) = (a : Int) ∧ (enN : Int) = (a : Int) + ((2 ^ (dl + 1) : Nat) : Int) - 1
      · rw [if_pos hbase]
        obtain ⟨hb1, hb2⟩ := hbase
        have hst : stN = a := by exact_mod_cast hb1
        have hen : enN = a + 2 ^ (dl + 1) - 1 := by omega
        subst hst
        have hsf := subtree_fold op e d hassoc hLe hRe t c hC hInv (dl + 1) (by omega) k hk1 hk2
        rw [← ha] at hsf
        rw [hsf, show enN + 1 - stN = 2 ^ (dl + 1) by omega]
      · rw [if_neg hbase]
        have hmid : Int.fdiv ((a : Int) + ((a : Int) + ((2 ^ (dl + 1) : Nat) : Int) - 1)) 2 =
            (a : Int) + ((2 ^ dl : Nat) : Int) - 1 := by
          rw [Int.fdiv_eq_ediv _ (by omega)]
          omega
        rw [hmid]
        by_cases hleft : (enN : Int) ≤ (a : Int) + ((2 ^ dl : Nat) : Int) - 1
        · rw [if_pos hleft]
          exact ih (by omega) fuel (by omega) (2 * k) a stN enN (by omega) (by omega)
            (by omega) hast hsten (by omega)
        · rw [if_neg hleft]
          by_cases hright : (a : Int) + ((2 ^ dl : Nat) : Int) - 1 + 1 ≤ (stN : Int)
          · rw [if_pos hright]
            rw [show (a : Int) + ((2 ^ dl : Nat) : Int) - 1 + 1 = ((a + 2 ^ dl : Nat) : Int)
              by omega]
            rw [show (a : Int) + ((2 ^ (dl + 1) : Nat) : Int) - 1 =
              ((a + 2 ^ dl : Nat) : Int) + ((2 ^ dl : Nat) : Int) - 1 by omega]
            exact ih (by omega) fuel (by omega) (2 * k + 1) (a + 2 ^ dl) stN enN (by omega)
              (by omega) (by omega) (by omega) hsten (by omega)
          · rw [if_neg hright]
            have hcall1 := ih (by omega) fuel (by omega) (2 * k) a stN (a + 2 ^ dl - 1)
              (by omega) (by omega) (by omega) hast (by omega) (by omega)
            have hcall2 := ih (by omega) fuel (by omega) (2 * k + 1) (a + 2 ^ dl)
              (a + 2 ^ dl) enN (by omega) (by omega) (by omega) (by omega) (by omega)
              (by omega)
            rw [show (a : Int) + ((2 ^ (dl + 1) : Nat) : Int) - 1 =
              ((a + 2 ^ dl : Nat) : Int) + ((2 ^ dl : Nat) : Int) - 1 by omega]
            nth_rewrite 1 [show (a : Int) + ((2 ^ dl : Nat) : Int) - 1 =
              ((a + 2 ^ dl - 1 : Nat) : Int) by omega]
            rw [show (a : Int) + ((2 ^ dl : Nat) : Int) - 1 + 1 = ((a + 2 ^ dl : Nat) : Int)
              by omega]
            rw [hcall1, hcall2]
            have hsplit : leavesFold op e d t stN (enN + 1 - stN) =
                op (leavesFold op e d t stN (a + 2 ^ dl - 1 + 1 - stN))
                  (leavesFold op e d t (a + 2 ^ dl) (enN + 1 - (a + 2 ^ dl))) := by
              rw [show enN + 1 - stN =
                (a + 2 ^ dl - 1 + 1 - stN) + (enN + 1 - (a + 2 ^ dl)) by omega]
              rw [leavesFold_split op e d hassoc hLe hRe]
              rw [show stN + (a + 2 ^ dl - 1 + 1 - stN) = a + 2 ^ dl by omega]
            rw [hsplit]

theorem reduceHelper_empty {α : Type} (op : α → α → α) (d : α) (value : List α) :
    ∀ (fuel : Nat) (st en a b : Int) (node : Nat), en < st → 0 ≤ a → a ≤ b → a ≤ st → en ≤ b →
      reduceHelper op d value fuel st en node a b = none := by
  intro fuel
  induction fuel with
  | zero => intro st en a b node _ _ _ _ _; rfl
  | succ fuel ih =>
    intro st en a b node hempty ha0 hab hast henb
    rw [reduceHelper]
    rw [if_neg (by intro h; omega)]
    rw [Int.fdiv_eq_ediv _ (by omega)]
    by_cases hle : en ≤ (a + b) / 2
    · rw [if_pos hle]
      exact ih st en a ((a + b) / 2) _ hempty ha0 (by omega) hast hle
    · rw [if_neg hle]
      by_cases hge : (a + b) / 2 + 1 ≤ st
      · rw [if_pos hge]
        exact ih st en ((a + b) / 2 + 1) b _ hempty (by omega) (by omega) hge henb
      · exfalso
        omega

theorem reduce_default_root {α : Type} (op : α → α → α) (d : α) (t : SegTree α) :
    SegTree.reduce op d t 0 none = some (getv t.value 1 d) := by
  simp only [SegTree.reduce, Option.getD_none]
  rw [if_neg (by omega : ¬((t.capacity : Int) < 0))]
  rw [reduceHelper]
  rw [if_pos ⟨rfl, rfl⟩]

/-- C2 counterexample: on the consistent capacity-2 sum tree reached by
set(0, 1) and set(1, 2), the empty-range query reduce(0, 0) — which the claim
says equals the fold over an empty range, the neutral element 0 — does not
return at all: _reduce_helper recurses forever (none in the fueled model,
whose fuel strictly dominates every terminating run). -/
theorem C2_counterexample :
    SegTree.reduce (· + ·) (0 : ℚ)
      (applySets (· + ·) 0 (SegTree.init 2 0) [(0, 1), (1, 2)]) 0 (some 0) = none ∧
    leavesFold (· + ·) (0 : ℚ) 0
      (applySets (· + ·) 0 (SegTree.init 2 0) [(0, 1), (1, 2)]) 0 0 = 0 := by
  with_unfolding_all decide

/-- C2 amended: on every consistent tree (power-of-two capacity, the C1
invariant, an associative operation with two-sided neutral element), for all
0 ≤ start < end ≤ capacity, reduce(start, end) returns the left-to-right fold
of the operation over the leaves [start, end), and reduce with default bounds
(SumSegmentTree.sum()) returns the fold over all capacity leaves; but for an
empty range start = end the helper recursion never terminates, so the claim
holds only after excluding start = end. -/
theorem C2_reduce_correct {α : Type} (op : α → α → α) (e : α)
    (hassoc : ∀ x y z : α, op (op x y) z = op x (op y z))
    (hLe : ∀ x : α, op e x = x) (hRe : ∀ x : α, op x e = x)
    (c : Nat) (t : SegTree α) (hC : t.capacity = 2 ^ c) (hInv : SegTree.Inv op e t) :
    (∀ stN enN : Nat, stN < enN → enN ≤ 2 ^ c →
        SegTree.reduce op e t (stN : Int) (some (enN : Int)) =
          some (leavesFold op e e t stN (enN - stN))) ∧
    SegTree.reduce op e t 0 none = some (leavesFold op e e t 0 (2 ^ c)) ∧
    (∀ stN : Nat, stN ≤ 2 ^ c →
        SegTree.reduce op e t (stN : Int) (some (stN : Int)) = none) := by
  have hcap1 : 1 ≤ 2 ^ c := Nat.one_le_pow c 2 (by norm_num)
  have hfuel : c + 1 ≤ 2 ^ c + 1 := by
    have := Nat.lt_two_pow c
    omega
  have hgen : ∀ stN enN : Nat, stN < enN → enN ≤ 2 ^ c →
      reduceHelper op e t.value (2 ^ c + 1) (stN : Int) ((enN : Int) - 1) 1 0
        (((2 ^ c : Nat) : Int) - 1) = some (leavesFold op e e t stN (enN - stN)) := by
    intro stN enN hst hen
    have h1 := reduceHelper_correct op e e hassoc hLe hRe t c hC hInv c (le_refl c)
      (2 ^ c + 1) hfuel 1 0 stN (enN - 1) (by omega) (by omega) (by omega) (by omega)
      (by omega) (by omega)
    rw [Nat.cast_zero, zero_add] at h1
    rw [show ((enN - 1 : Nat) : Int) = (enN : Int) - 1 by omega] at h1
    rw [show enN - 1 + 1 - stN = enN - stN by omega] at h1
    exact h1
  refine ⟨?_, ?_, ?_⟩
  · intro stN enN hst hen
    simp only [SegTree.reduce, Option.getD_some, hC]
    rw [if_neg (by omega : ¬((enN : Int) < 0))]
    exact hgen stN enN hst hen
  · simp only [SegTree.reduce, Option.getD_none, hC]
    rw [if_neg (by omega : ¬(((2 ^ c : Nat) : Int) < 0))]
    have h2 := hgen 0 (2 ^ c) (by omega) (le_refl _)
    rw [Nat.cast_zero] at h2
    rw [show (2 : Nat) ^ c - 0 = 2 ^ c by omega] at h2
    exact h2
  · intro stN hst
    simp only [SegTree.reduce, Option.getD_some, hC]
    rw [if_neg (by omega : ¬((stN : Int) < 0))]
    exact reduceHelper_empty op e t.value (2 ^ c + 1) (stN : Int) ((stN : Int) - 1) 0
      (((2 ^ c : Nat) : Int) - 1) 1 (by omega) (by omega) (by omega) (by omega) (by omega)

/-- Witness for the amended C2 on the concrete consistent capacity-2 sum tree
with leaves 1 and 2: reduce(0, 2) folds both leaves, and the empty query
reduce(1, 1) diverges. -/
theorem C2_reduce_correct_witness :
    SegTree.reduce (· + ·) (0 : ℚ) ⟨2, [0, 3, 1, 2]⟩ 0 (some 2) =
      some (leavesFold (· + ·) 0 0 ⟨2, [0, 3, 1, 2]⟩ 0 2) ∧
    SegTree.reduce (· + ·) (0 : ℚ) ⟨2, [0, 3, 1, 2]⟩ 1 (some 1) = none := by
  have hC : (⟨2, [0, 3, 1, 2]⟩ : SegTree ℚ).capacity = 2 ^ 1 := by norm_num
  have hInv : SegTree.Inv (· + ·) (0 : ℚ) ⟨2, [0, 3, 1, 2]⟩ := by
    with_unfolding_all decide
  have h := C2_reduce_correct (· + ·) (0 : ℚ) (fun x y z => add_assoc x y z)
    (fun x => zero_add x) (fun x => add_zero x) 1 ⟨2, [0, 3, 1, 2]⟩ hC hInv
  constructor
  · have h1 := h.1 0 2 (by norm_num) (by norm_num)
    simpa using h1
  · have h3 := h.2.2 1 (by norm_num)
    simpa using h3

theorem leavesFold_eq_leafSum (t : SegTree ℚ) (lo : Nat) :
    ∀ n : Nat, leavesFold (· + ·) 0 0 t lo n = leafSum t lo (lo + n) := by
  intro n
  induction n with
  | zero => simp [leavesFold, leafSum]
  | succ n ih =>
    unfold leavesFold at ih ⊢
    rw [List.range_succ, List.map_append, List.foldl_append]
    rw [ih]
    show leafSum t lo (lo + n) + t.leafv (lo + n) 0 = leafSum t lo (lo + (n + 1))
    rw [show lo + (n + 1) = (lo + n) + 1 by omega]
    exact (Finset.sum_Ico_succ_top (by omega) _).symm

theorem leafSum_empty (t : SegTree ℚ) (lo : Nat) : leafSum t lo lo = 0 := by
  simp [leafSum]

theorem leafSum_single (t : SegTree ℚ) (lo : Nat) : leafSum t lo (lo + 1) = t.leafv lo 0 := by
  simp [leafSum]

theorem leafSum_consec (t : SegTree ℚ) {lo mid hi : Nat} (h1 : lo ≤ mid) (h2 : mid ≤ hi) :
    leafSum t lo mid + leafSum t mid hi = leafSum t lo hi :=
  Finset.sum_Ico_consecutive _ h1 h2

theorem leafSum_nonneg (t : SegTree ℚ) {lo hi B : Nat} (hhi : hi ≤ B)
    (hnn : ∀ i : Nat, i < B → 0 ≤ t.leafv i 0) : 0 ≤ leafSum t lo hi := by
  refine Finset.sum_nonneg ?_
  intro i hi2
  exact hnn i (by have := Finset.mem_Ico.mp hi2; omega)

theorem leafSum_mono (t : SegTree ℚ) {lo h1 h2 B : Nat} (hlo : lo ≤ h1) (h12 : h1 ≤ h2)
    (hhi : h2 ≤ B) (hnn : ∀ i : Nat, i < B → 0 ≤ t.leafv i 0) :
    leafSum t lo h1 ≤ leafSum t lo h2 := by
  rw [← leafSum_consec t hlo h12]
  have := @leafSum_nonneg t h1 h2 B hhi hnn
  linarith

theorem subtree_sum (t : SegTree ℚ) (c : Nat) (hC : t.capacity = 2 ^ c)
    (hInv : SegTree.Inv (· + ·) 0 t) :
    ∀ dl : Nat, dl ≤ c → ∀ k : Nat, 2 ^ c ≤ k * 2 ^ dl → k * 2 ^ dl < 2 * 2 ^ c →
      getv t.value k 0 = leafSum t (k * 2 ^ dl - 2 ^ c) (k * 2 ^ dl - 2 ^ c + 2 ^ dl) := by
  intro dl hdl k h1 h2
  rw [subtree_fold (· + ·) 0 0 (fun x y z => add_assoc x y z) (fun x => zero_add x)
    (fun x => add_zero x) t c hC hInv dl hdl k h1 h2]
  exact leavesFold_eq_leafSum t _ _

theorem findLoop_in_range (C : Nat) (value : List ℚ) :
    ∀ (fuel k : Nat) (p : ℚ), 1 ≤ k → k < 2 * C → 2 * C ≤ fuel + k →
      ∃ r : Nat, findLoop fuel C value k p = some r ∧ r < C := by
  intro fuel
  induction fuel with
  | zero =>
    intro k p h1 h2 h3
    exfalso
    omega
  | succ fuel ih =>
    intro k p h1 h2 h3
    by_cases hk : k < C
    · rw [findLoop, if_pos hk]
      by_cases hcond : p < getv value (2 * k) 0
      · rw [if_pos hcond]
        exact ih (2 * k) p (by omega) (by omega) (by omega)
      · rw [if_neg hcond]
        exact ih (2 * k + 1) _ (by omega) (by omega) (by omega)
    · rw [findLoop, if_neg hk]
      exact ⟨k - C, rfl, by omega⟩

theorem findLoop_descend (t : SegTree ℚ) (c : Nat) (hC : t.capacity = 2 ^ c)
    (hInv : SegTree.Inv (· + ·) 0 t)
    (_hnn : ∀ i : Nat, i < 2 ^ c → 0 ≤ t.leafv i 0) :
    ∀ dl : Nat, dl ≤ c → ∀ fuel : Nat, dl + 1 ≤ fuel →
    ∀ k a : Nat, 2 ^ c ≤ k * 2 ^ dl → k * 2 ^ dl < 2 * 2 ^ c → a = k * 2 ^ dl - 2 ^ c →
    ∀ p : ℚ, 0 ≤ p → p < getv t.value k 0 →
      ∃ r : Nat, findLoop fuel t.capacity t.value k p = some r ∧
        a ≤ r ∧ r < a + 2 ^ dl ∧
        leafSum t a r ≤ p ∧ p < leafSum t a (r + 1) := by
  intro dl
  induction dl with
  | zero =>
    intro hdl fuel hfuel k a hk1 hk2 ha p hp0 hpk
    match fuel, hfuel with
    | fuel + 1, _ =>
      rw [findLoop, if_neg (by rw [hC]; omega)]
      refine ⟨k - 2 ^ c, by rw [hC], by omega, by omega, ?_, ?_⟩
      · rw [show k - 2 ^ c = a by omega, leafSum_empty]
        exact hp0
      · rw [show k - 2 ^ c = a by omega, show a + 1 = a + 1 from rfl, leafSum_single]
        have hleaf : t.leafv a 0 = getv t.value k 0 := by
          show getv t.value (t.capacity + a) 0 = getv t.value k 0
          rw [hC, show 2 ^ c + a = k by omega]
        rw [hleaf]
        exact hpk
  | succ dl ih =>
    intro hdl fuel hfuel k a hk1 hk2 ha p hp0 hpk
    match fuel, hfuel with
    | fuel + 1, hfuel =>
      have hs1 : 1 ≤ 2 ^ dl := Nat.one_le_pow dl 2 (by norm_num)
      have hps : (2 : Nat) ^ (dl + 1) = 2 ^ dl + 2 ^ dl := by rw [pow_succ]; omega
      obtain ⟨hk0, hkC, hub, hub2, hlc, hrc⟩ := node_bounds hdl hk1 hk2
      rw [findLoop, if_pos (by rw [hC]; exact hkC)]
      have hlv : getv t.value (2 * k) 0 = leafSum t a (a + 2 ^ dl) := by
        have := subtree_sum t c hC hInv dl (by omega) (2 * k) (by omega) (by omega)
        rw [this, show 2 * k * 2 ^ dl - 2 ^ c = a by omega]
      have hrv : getv t.value (2 * k + 1) 0 = leafSum t (a + 2 ^ dl) (a + 2 ^ (dl + 1)) := by
        have := subtree_sum t c hC hInv dl (by omega) (2 * k + 1) (by omega) (by omega)
        rw [this, show (2 * k + 1) * 2 ^ dl - 2 ^ c = a + 2 ^ dl by omega,
          show a + 2 ^ dl + 2 ^ dl = a + 2 ^ (dl + 1) by omega]
      have hsumk : getv t.value k 0 = getv t.value (2 * k) 0 + getv t.value (2 * k + 1) 0 :=
        hInv k (by rw [hC]; exact hkC) hk0
      by_cases hcond : p < getv t.value (2 * k) 0
      · rw [if_pos hcond]
        obtain ⟨r, hfind, hr1, hr2, hb1, hb2⟩ :=
          ih (by omega) fuel (by omega) (2 * k) a (by omega) (by omega) (by omega) p hp0 hcond
        exact ⟨r, hfind, hr1, by omega, hb1, hb2⟩
      · rw [if_neg hcond]
        push_neg at hcond
        have hp2 : p - getv t.value (2 * k) 0 < getv t.value (2 * k + 1) 0 := by
          have := hpk
          rw [hsumk] at this
          linarith
        obtain ⟨r, hfind, hr1, hr2, hb1, hb2⟩ :=
          ih (by omega) fuel (by omega) (2 * k + 1) (a + 2 ^ dl) (by omega) (by omega)
            (by omega) (p - getv t.value (2 * k) 0) (by linarith) hp2
        refine ⟨r, hfind, by omega, by omega, ?_, ?_⟩
        · have hsplit : leafSum t a r =
              leafSum t a (a + 2 ^ dl) + leafSum t (a + 2 ^ dl) r :=
            (leafSum_consec t (by omega) (by omega)).symm
          rw [hsplit, ← hlv]
          linarith
        · have hsplit : leafSum t a (r + 1) =
              leafSum t a (a + 2 ^ dl) + leafSum t (a + 2 ^ dl) (r + 1) :=
            (leafSum_consec t (by omega) (by omega)).symm
          rw [hsplit, ← hlv]
          linarith

theorem findLoop_rightmost (t : SegTree ℚ) (c : Nat) (hC : t.capacity = 2 ^ c)
    (hInv : SegTree.Inv (· + ·) 0 t)
    (hnn : ∀ i : Nat, i < 2 ^ c → 0 ≤ t.leafv i 0) :
    ∀ dl : Nat, dl ≤ c → ∀ fuel : Nat, dl + 1 ≤ fuel →
    ∀ k a : Nat, 2 ^ c ≤ k * 2 ^ dl → k * 2 ^ dl < 2 * 2 ^ c → a = k * 2 ^ dl - 2 ^ c →
    ∀ p : ℚ, getv t.value k 0 ≤ p →
      findLoop fuel t.capacity t.value k p = some (a + 2 ^ dl - 1) := by
  intro dl
  induction dl with
  | zero =>
    intro hdl fuel hfuel k a hk1 hk2 ha p hpk
    match fuel, hfuel with
    | fuel + 1, _ =>
      rw [findLoop, if_neg (by rw [hC]; omega)]
      rw [show k - t.capacity = a + 2 ^ 0 - 1 by rw [hC]; omega]
  | succ dl ih =>
    intro hdl fuel hfuel k a hk1 hk2 ha p hpk
    match fuel, hfuel with
    | fuel + 1, hfuel =>
      have hs1 : 1 ≤ 2 ^ dl := Nat.one_le_pow dl 2 (by norm_num)
      have hps : (2 : Nat) ^ (dl + 1) = 2 ^ dl + 2 ^ dl := by rw [pow_succ]; omega
      obtain ⟨hk0, hkC, hub, hub2, hlc, hrc⟩ := node_bounds hdl hk1 hk2
      rw [findLoop, if_pos (by rw [hC]; exact hkC)]
      have hsumk : getv t.value k 0 = getv t.value (2 * k) 0 + getv t.value (2 * k + 1) 0 :=
        hInv k (by rw [hC]; exact hkC) hk0
      have hrv : getv t.value (2 * k + 1) 0 = leafSum t (a + 2 ^ dl) (a + 2 ^ (dl + 1)) := by
        have := subtree_sum t c hC hInv dl (by omega) (2 * k + 1) (by omega) (by omega)
        rw [this, show (2 * k + 1) * 2 ^ dl - 2 ^ c = a + 2 ^ dl by omega,
          show a + 2 ^ dl + 2 ^ dl = a + 2 ^ (dl + 1) by omega]
      have hrnn : 0 ≤ getv t.value (2 * k + 1) 0 := by
        rw [hrv]
        exact leafSum_nonneg t (by omega) hnn
      rw [if_neg (by linarith)]
      have := ih (by omega) fuel (by omega) (2 * k + 1) (a + 2 ^ dl) (by omega) (by omega)
        (by omega) (p - getv t.value (2 * k) 0) (by linarith)
      rw [this, show a + 2 ^ dl + 2 ^ dl - 1 = a + 2 ^ (dl + 1) - 1 by omega]

/-- C3 (confirmed): on a consistent sum tree whose capacity leaves are all
strictly positive, for every target with 0 ≤ target < total sum,
find_prefixsum_idx(target) passes its assert, terminates, and returns the
unique leaf index r with sum of leaves [0, r) ≤ target < sum of leaves
[0, r+1). -/
theorem C3_find_prefix_inverse (t : SegTree ℚ) (c : Nat) (hC : t.capacity = 2 ^ c)
    (hInv : SegTree.Inv (· + ·) 0 t)
    (hpos : ∀ i : Nat, i < 2 ^ c → 0 < t.leafv i 0)
    (p : ℚ) (hp0 : 0 ≤ p) (hptot : p < leafSum t 0 (2 ^ c)) :
    ∃ r : Nat, findPrefixSumIdx t p = some (.ok r) ∧ r < 2 ^ c ∧
      leafSum t 0 r ≤ p ∧ p < leafSum t 0 (r + 1) ∧
      ∀ j : Nat, j < 2 ^ c → leafSum t 0 j ≤ p → p < leafSum t 0 (j + 1) → j = r := by
  have hnn : ∀ i : Nat, i < 2 ^ c → 0 ≤ t.leafv i 0 := fun i hi => le_of_lt (hpos i hi)
  have hcap1 : 1 ≤ 2 ^ c := Nat.one_le_pow c 2 (by norm_num)
  have hroot : getv t.value 1 0 = leafSum t 0 (2 ^ c) := by
    have h := subtree_sum t c hC hInv c (le_refl c) 1 (by omega) (by omega)
    simpa using h
  have hfuel : c + 1 ≤ 2 * t.capacity := by
    have := Nat.lt_two_pow c
    rw [hC]
    omega
  obtain ⟨r, hfind, hr1, hr2, hb1, hb2⟩ :=
    findLoop_descend t c hC hInv hnn c (le_refl c) (2 * t.capacity) hfuel 1 0 (by omega)
      (by omega) (by omega) p hp0 (by rw [hroot]; exact hptot)
  refine ⟨r, ?_, by omega, hb1, hb2, ?_⟩
  · unfold findPrefixSumIdx
    rw [reduce_default_root]
    show (if 0 ≤ p ∧ p ≤ getv t.value 1 0 + 1 / 100000 then
        (findLoop (2 * t.capacity) t.capacity t.value 1 p).map Except.ok
      else some (.error "AssertionError")) = some (.ok r)
    rw [if_pos ⟨hp0, by rw [hroot]; linarith [show (0 : ℚ) < 1 / 100000 by norm_num]⟩]
    rw [hfind]
    rfl
  · intro j hj hj1 hj2
    by_contra hne
    rcases Nat.lt_or_ge j r with h | h
    · have hjr : j + 1 ≤ r := by omega
      have hmono := leafSum_mono t (show 0 ≤ j + 1 by omega) hjr (by omega) hnn
      linarith
    · have hrj : r + 1 ≤ j := by omega
      have hmono := leafSum_mono t (show 0 ≤ r + 1 by omega) hrj (by omega) hnn
      linarith

/-- Witness for C3: the consistent capacity-2 sum tree with leaves 1 and 2
and target 3/2: the returned index is 1, since sum(0,1) = 1 ≤ 3/2 < 3. -/
theorem C3_find_prefix_inverse_witness :
    findPrefixSumIdx ⟨2, [0, 3, 1, 2]⟩ (3 / 2) = some (.ok 1) := by
  obtain ⟨r, hfind, hr, hb1, hb2, huniq⟩ :=
    C3_find_prefix_inverse ⟨2, [0, 3, 1, 2]⟩ 1 (by norm_num)
      (by with_unfolding_all decide) (by with_unfolding_all decide) (3 / 2)
      (by norm_num) (by with_unfolding_all decide)
  have h1r : 1 = r := huniq 1 (by norm_num) (by with_unfolding_all decide)
    (by with_unfolding_all decide)
  rw [← h1r] at hfind
  exact hfind

/-- C10 (confirmed): for every target accepted by the assert
(0 ≤ target ≤ total + 1e-5) on a consistent sum tree with nonnegative leaves,
find_prefixsum_idx terminates (the loop index at least doubles per pass, so
the model fuel 2 * capacity strictly dominates the loop) and returns an index
in [0, capacity); and when the populated slots form a prefix [0, L) with
L < capacity (all later leaves hold the neutral element 0) and the target is
at least their cumulative mass, the returned index is an unpopulated slot
whose leaf still holds the neutral element. -/
theorem C10_find_terminates_in_range (t : SegTree ℚ) (c : Nat) (hC : t.capacity = 2 ^ c)
    (hInv : SegTree.Inv (· + ·) 0 t)
    (hnn : ∀ i : Nat, i < 2 ^ c → 0 ≤ t.leafv i 0)
    (p : ℚ) (hp0 : 0 ≤ p) (hpe : p ≤ leafSum t 0 (2 ^ c) + 1 / 100000) :
    ∃ r : Nat, findPrefixSumIdx t p = some (.ok r) ∧ r < 2 ^ c ∧
      (∀ L : Nat, L < 2 ^ c → (∀ i : Nat, L ≤ i → i < 2 ^ c → t.leafv i 0 = 0) →
        leafSum t 0 L ≤ p → t.leafv r 0 = 0) := by
  have hcap1 : 1 ≤ 2 ^ c := Nat.one_le_pow c 2 (by norm_num)
  have hroot : getv t.value 1 0 = leafSum t 0 (2 ^ c) := by
    have h := subtree_sum t c hC hInv c (le_refl c) 1 (by omega) (by omega)
    simpa using h
  obtain ⟨r, hfind, hrC⟩ := findLoop_in_range t.capacity t.value (2 * t.capacity) 1 p
    (by omega) (by omega) (by omega)
  refine ⟨r, ?_, by rw [← hC]; exact hrC, ?_⟩
  · unfold findPrefixSumIdx
    rw [reduce_default_root]
    show (if 0 ≤ p ∧ p ≤ getv t.value 1 0 + 1 / 100000 then
        (findLoop (2 * t.capacity) t.capacity t.value 1 p).map Except.ok
      else some (.error "AssertionError")) = some (.ok r)
    rw [if_pos ⟨hp0, by rw [hroot]; exact hpe⟩]
    rw [hfind]
    rfl
  · intro L hL hzero hmass
    have hzsum : leafSum t L (2 ^ c) = 0 := by
      refine Finset.sum_eq_zero ?_
      intro i hi
      have := Finset.mem_Ico.mp hi
      exact hzero i (by omega) (by omega)
    have htot : leafSum t 0 (2 ^ c) = leafSum t 0 L := by
      rw [← leafSum_consec t (show 0 ≤ L by omega) (le_of_lt hL), hzsum, add_zero]
    have hptot2 : getv t.value 1 0 ≤ p := by
      rw [hroot, htot]
      exact hmass
    have hright := findLoop_rightmost t c hC hInv hnn c (le_refl c) (2 * t.capacity)
      (by have := Nat.lt_two_pow c; rw [hC]; omega) 1 0 (by omega) (by omega) (by omega)
      p hptot2
    rw [hright] at hfind
    have hr : r = 0 + 2 ^ c - 1 := by
      injection hfind with h
      exact h.symm
    rw [hr]
    exact hzero (0 + 2 ^ c - 1) (by omega) (by omega)

/-- Witness for C10: the consistent capacity-2 sum tree with one populated
slot (leaf 0 = 1) and target 1 (the full populated mass): the call returns
index 1, an unpopulated slot holding the neutral element. -/
theorem C10_find_terminates_in_range_witness :
    findPrefixSumIdx ⟨2, [0, 1, 1, 0]⟩ 1 = some (.ok 1) := by
  obtain ⟨r, hfind, hrC, hzero⟩ :=
    C10_find_terminates_in_range ⟨2, [0, 1, 1, 0]⟩ 1 (by norm_num)
      (by with_unfolding_all decide) (by with_unfolding_all decide) 1 (by norm_num)
      (by with_unfolding_all decide)
  have hz := hzero 1 (by norm_num)
    (by
      intro i h1 h2
      have hi1 : i = 1 := by omega
      subst hi1
      with_unfolding_all decide)
    (by with_unfolding_all decide)
  have hr1 : r = 1 := by
    rcases (by omega : r = 0 ∨ r = 1) with h | h
    · subst h
      exfalso
      revert hz
      with_unfolding_all decide
    · exact h
  rw [hr1] at hfind
  exact hfind

theorem reduce_sum_eval (t : SegTree ℚ) (c : Nat) (hC : t.capacity = 2 ^ c)
    (hInv : SegTree.Inv (· + ·) 0 t) (stN enN : Nat) (h1 : stN < enN) (h2 : enN ≤ 2 ^ c) :
    SegTree.reduce (· + ·) 0 t (stN : Int) (some (enN : Int)) =
      some (leafSum t stN enN) := by
  have hcap1 : 1 ≤ 2 ^ c := Nat.one_le_pow c 2 (by norm_num)
  have hfuel : c + 1 ≤ 2 ^ c + 1 := by
    have := Nat.lt_two_pow c
    omega
  simp only [SegTree.reduce, Option.getD_some, hC]
  rw [if_neg (by omega : ¬((enN : Int) < 0))]
  have h3 := reduceHelper_correct (· + ·) 0 0 (fun x y z => add_assoc x y z)
    (fun x => zero_add x) (fun x => add_zero x) t c hC hInv c (le_refl c)
    (2 ^ c + 1) hfuel 1 0 stN (enN - 1) (by omega) (by omega) (by omega) (by omega)
    (by omega) (by omega)
  rw [Nat.cast_zero, zero_add] at h3
  rw [show ((enN - 1 : Nat) : Int) = (enN : Int) - 1 by omega] at h3
  rw [h3, leavesFold_eq_leafSum]
  rw [show stN + (enN - 1 + 1 - stN) = enN by omega]

theorem reduce_empty_eval {α : Type} (op : α → α → α) (e : α) (t : SegTree α) (c : Nat)
    (hC : t.capacity = 2 ^ c) (st stop : Int) (h0 : 0 ≤ stop) (h1 : stop ≤ st)
    (h2 : stop ≤ 2 ^ c) :
    SegTree.reduce op e t st (some stop) = none := by
  have hcap1 : 1 ≤ 2 ^ c := Nat.one_le_pow c 2 (by norm_num)
  have hbridge : (2 : Int) ^ c = ((2 ^ c : Nat) : Int) := by push_cast; ring
  simp only [SegTree.reduce, Option.getD_some, hC]
  rw [if_neg (by omega)]
  exact reduceHelper_empty op e t.value _ st (stop - 1) 0 _ 1
    (by omega) (by omega) (by omega) (by omega) (by omega)

theorem findPrefixSumIdx_eval (t : SegTree ℚ) (c : Nat) (hC : t.capacity = 2 ^ c)
    (hInv : SegTree.Inv (· + ·) 0 t)
    (hnn : ∀ i : Nat, i < 2 ^ c → 0 ≤ t.leafv i 0)
    (p : ℚ) (hp0 : 0 ≤ p) (hptot : p < leafSum t 0 (2 ^ c)) :
    ∃ r : Nat, findPrefixSumIdx t p = some (.ok r) ∧ r < 2 ^ c ∧
      leafSum t 0 r ≤ p ∧ p < leafSum t 0 (r + 1) := by
  have hcap1 : 1 ≤ 2 ^ c := Nat.one_le_pow c 2 (by norm_num)
  have hroot : getv t.value 1 0 = leafSum t 0 (2 ^ c) := by
    have h := subtree_sum t c hC hInv c (le_refl c) 1 (by omega) (by omega)
    simpa using h
  have hfuel : c + 1 ≤ 2 * t.capacity := by
    have := Nat.lt_two_pow c
    rw [hC]
    omega
  obtain ⟨r, hfind, hr1, hr2, hb1, hb2⟩ :=
    findLoop_descend t c hC hInv hnn c (le_refl c) (2 * t.capacity) hfuel 1 0 (by omega)
      (by omega) (by omega) p hp0 (by rw [hroot]; exact hptot)
  refine ⟨r, ?_, by omega, hb1, hb2⟩
  unfold findPrefixSumIdx
  rw [reduce_default_root]
  show (if 0 ≤ p ∧ p ≤ getv t.value 1 0 + 1 / 100000 then
      (findLoop (2 * t.capacity) t.capacity t.value 1 p).map Except.ok
    else some (.error "AssertionError")) = some (.ok r)
  rw [if_pos ⟨hp0, by rw [hroot]; linarith [show (0 : ℚ) < 1 / 100000 by norm_num]⟩]
  rw [hfind]
  rfl

/-- Well-formedness of a prioritized buffer state, with c the exponent of the
tree capacity chosen at construction: declared tree capacities and backing
array lengths agree, the ring size fits inside the trees, the cursor lies in
the ring, the populated count saturates at the ring size, and until the ring
wraps the cursor equals the populated count. -/
def PWf (b : PRB) (c : Nat) : Prop :=
  1 ≤ b.maxsize ∧ b.itSum.capacity = 2 ^ c ∧ b.itMin.capacity = 2 ^ c ∧
  b.maxsize ≤ 2 ^ c ∧ b.itSum.value.length = 2 * 2 ^ c ∧
  b.itMin.value.length = 2 * 2 ^ c ∧ b.storageLen ≤ b.maxsize ∧
  b.nextIdx < b.maxsize ∧ (b.storageLen < b.maxsize → b.nextIdx = b.storageLen)

instance (b : PRB) (c : Nat) : Decidable (PWf b c) := by
  unfold PWf; infer_instance

theorem add_facts (pa : ℚ → ℚ) (b : PRB) (c : Nat) (hwf : PWf b c) :
    ∃ b2 : PRB, PRB.add pa b = .ok b2 ∧
      b2.itSum.leafv b.nextIdx 0 = pa b.maxPriority ∧
      b2.itMin.leafv b.nextIdx ⊤ = ((pa b.maxPriority : ℚ) : WithTop ℚ) ∧
      (∀ j : Nat, j ≠ b.nextIdx → b2.itSum.leafv j 0 = b.itSum.leafv j 0) ∧
      (∀ j : Nat, j ≠ b.nextIdx → b2.itMin.leafv j ⊤ = b.itMin.leafv j ⊤) ∧
      b2.maxPriority = b.maxPriority ∧
      b2.storageLen = (if b.storageLen ≤ b.nextIdx then b.storageLen + 1 else b.storageLen) ∧
      b2.nextIdx = (b.nextIdx + 1) % b.maxsize ∧
      (SegTree.Inv (· + ·) 0 b.itSum → SegTree.Inv (· + ·) 0 b2.itSum) ∧
      (SegTree.Inv tmin ⊤ b.itMin → SegTree.Inv tmin ⊤ b2.itMin) ∧
      PWf b2 c := by
  obtain ⟨hmax, hcap, hcapm, hsize, hlen, hlenm, hstor, hnext, hcursor⟩ := hwf
  have hcap1 : 1 ≤ 2 ^ c := Nat.one_le_pow c 2 (by norm_num)
  have hidx : b.nextIdx < 2 ^ c := by omega
  obtain ⟨s2, hok1, hs2C, hs2len, hs2leaf, hs2others, hs2inv⟩ :=
    setItem_facts (· + ·) (0 : ℚ) b.itSum hcap hlen (by omega) hidx (pa b.maxPriority)
  obtain ⟨m2, hok2, hm2C, hm2len, hm2leaf, hm2others, hm2inv⟩ :=
    setItem_facts tmin (⊤ : WithTop ℚ) b.itMin hcapm hlenm (by omega) hidx
      ((pa b.maxPriority : ℚ) : WithTop ℚ)
  refine ⟨{ b with
      storageLen := if b.storageLen ≤ b.nextIdx then b.storageLen + 1 else b.storageLen,
      nextIdx := (b.nextIdx + 1) % b.maxsize, itSum := s2, itMin := m2 },
    ?_, hs2leaf, hm2leaf, hs2others, hm2others, rfl, rfl, rfl, hs2inv, hm2inv, ?_⟩
  · simp only [PRB.add, hok1, hok2]
  · refine ⟨hmax, hs2C, hm2C, hsize, hs2len, hm2len, ?_, Nat.mod_lt _ (by omega), ?_⟩
    · by_cases h : b.storageLen ≤ b.nextIdx
      · simp only [h, if_true]
        omega
      · simp only [h, if_false]
        exact hstor
    · intro hlt
      by_cases h : b.storageLen ≤ b.nextIdx
      · simp only [h, if_true] at hlt ⊢
        have hne := hcursor (by omega)
        rw [Nat.mod_eq_of_lt (by omega)]
        omega
      · simp only [h, if_false] at hlt ⊢
        have hne := hcursor hlt
        omega

/-- A pair (index, priority) accepted by the per-pair asserts of
update_priorities against a store of the given populated length. -/
def goodPair (L : Nat) (x : Int × ℚ) : Prop :=
  0 < x.2 ∧ 0 ≤ x.1 ∧ x.1 < (L : Int)

instance (L : Nat) (x : Int × ℚ) : Decidable (goodPair L x) := by
  unfold goodPair; infer_instance

/-- The successful loop body of update_priorities for one pair: write both
trees at the index and raise _max_priority. -/
def applyPair (pa : ℚ → ℚ) (b : PRB) (x : Int × ℚ) : PRB :=
  match SegTree.setItem (· + ·) 0 b.itSum x.1 (pa x.2),
      SegTree.setItem tmin ⊤ b.itMin x.1 ((pa x.2 : ℚ) : WithTop ℚ) with
  | .ok s, .ok m => { b with itSum := s, itMin := m, maxPriority := max b.maxPriority x.2 }
  | _, _ => b

theorem applyPair_facts (pa : ℚ → ℚ) (b : PRB) (c : Nat) (hwf : PWf b c)
    {x : Int × ℚ} (hx : goodPair b.storageLen x) :
    PWf (applyPair pa b x) c ∧
    (applyPair pa b x).storageLen = b.storageLen ∧
    (applyPair pa b x).maxPriority = max b.maxPriority x.2 ∧
    ∀ rest : List (Int × ℚ),
      updLoop pa b (x :: rest) = updLoop pa (applyPair pa b x) rest := by
  obtain ⟨hmax, hcap, hcapm, hsize, hlen, hlenm, hstor, hnext, hcursor⟩ := hwf
  obtain ⟨hp, hi0, hiL⟩ := hx
  have hcap1 : 1 ≤ 2 ^ c := Nat.one_le_pow c 2 (by norm_num)
  have hxi : x.1 = ((x.1.toNat : Nat) : Int) := by omega
  have hidx : x.1.toNat < 2 ^ c := by omega
  obtain ⟨s2, hok1, hs2C, hs2len, -, -, -⟩ :=
    setItem_facts (· + ·) (0 : ℚ) b.itSum hcap hlen (by omega) hidx (pa x.2)
  obtain ⟨m2, hok2, hm2C, hm2len, -, -, -⟩ :=
    setItem_facts tmin (⊤ : WithTop ℚ) b.itMin hcapm hlenm (by omega) hidx
      ((pa x.2 : ℚ) : WithTop ℚ)
  rw [← hxi] at hok1 hok2
  have happ : applyPair pa b x =
      { b with itSum := s2, itMin := m2, maxPriority := max b.maxPriority x.2 } := by
    unfold applyPair
    rw [hok1, hok2]
  refine ⟨?_, by rw [happ], by rw [happ], ?_⟩
  · rw [happ]
    exact ⟨hmax, hs2C, hm2C, hsize, hs2len, hm2len, hstor, hnext, hcursor⟩
  · intro rest
    obtain ⟨xi, xp⟩ := x
    rw [updLoop]
    rw [if_neg (by simpa using hp)]
    rw [if_neg (by push_neg; exact ⟨by simpa using hi0, by simpa using hiL⟩)]
    rw [hok1, hok2]
    show updLoop pa _ rest = _
    rw [happ]

theorem updLoop_all_good (pa : ℚ → ℚ) (c : Nat) :
    ∀ (pairs : List (Int × ℚ)) (b : PRB), PWf b c →
      (∀ x ∈ pairs, goodPair b.storageLen x) →
      updLoop pa b pairs = .ok (pairs.foldl (applyPair pa) b) ∧
      PWf (pairs.foldl (applyPair pa) b) c ∧
      (pairs.foldl (applyPair pa) b).storageLen = b.storageLen ∧
      (pairs.foldl (applyPair pa) b).maxPriority =
        pairs.foldl (fun m x => max m x.2) b.maxPriority := by
  intro pairs
  induction pairs with
  | nil => intro b hwf _; exact ⟨rfl, hwf, rfl, rfl⟩
  | cons x rest ih =>
    intro b hwf hgood
    obtain ⟨hwf2, hstor2, hmaxp2, hstep⟩ :=
      applyPair_facts pa b c hwf (hgood x (List.mem_cons_self x rest))
    have hgood2 : ∀ y ∈ rest, goodPair (applyPair pa b x).storageLen y := by
      intro y hy
      rw [hstor2]
      exact hgood y (List.mem_cons_of_mem x hy)
    obtain ⟨hok, hwf3, hstor3, hmax3⟩ := ih (applyPair pa b x) hwf2 hgood2
    refine ⟨?_, ?_, ?_, ?_⟩
    · rw [hstep rest, List.foldl_cons]
      exact hok
    · rw [List.foldl_cons]
      exact hwf3
    · rw [List.foldl_cons, hstor3, hstor2]
    · rw [List.foldl_cons, List.foldl_cons, hmax3, hmaxp2]

theorem updLoop_bad_head (pa : ℚ → ℚ) (b : PRB) (x : Int × ℚ)
    (hbad : ¬ goodPair b.storageLen x) (rest : List (Int × ℚ)) :
    ∃ msg : String, updLoop pa b (x :: rest) = .error (msg, b) := by
  obtain ⟨xi, xp⟩ := x
  by_cases hp : 0 < xp
  · have hibad : ¬ (0 ≤ xi ∧ xi < (b.storageLen : Int)) := by
      intro hc
      exact hbad ⟨hp, hc.1, hc.2⟩
    refine ⟨"IndexOutOfRange", ?_⟩
    rw [updLoop, if_neg (by simpa using hp), if_pos hibad]
  · refine ⟨"InvalidPriority", ?_⟩
    rw [updLoop, if_pos (by simpa using hp)]

theorem updLoop_partial (pa : ℚ → ℚ) (c : Nat) :
    ∀ (xs : List (Int × ℚ)) (b : PRB), PWf b c → (∀ x ∈ xs, goodPair b.storageLen x) →
      ∀ (bad : Int × ℚ) (ys : List (Int × ℚ)), ¬ goodPair b.storageLen bad →
      ∃ msg : String, updLoop pa b (xs ++ bad :: ys) =
        .error (msg, xs.foldl (applyPair pa) b) := by
  intro xs
  induction xs with
  | nil =>
    intro b hwf _ bad ys hbad
    exact updLoop_bad_head pa b bad hbad ys
  | cons x rest ih =>
    intro b hwf hgood bad ys hbad
    obtain ⟨hwf2, hstor2, hmaxp2, hstep⟩ :=
      applyPair_facts pa b c hwf (hgood x (List.mem_cons_self x rest))
    rw [List.cons_append, hstep (rest ++ bad :: ys), List.foldl_cons]
    refine ih (applyPair pa b x) hwf2 ?_ bad ys ?_
    · intro y hy
      rw [hstor2]
      exact hgood y (List.mem_cons_of_mem x hy)
    · rw [hstor2]
      exact hbad

/-- The concrete store used to refute C4: a fresh prioritized buffer of size
2 (tree capacity 2) after one add with default priority 1 (pa is the identity,
the alpha = 1 instance of p ** alpha). -/
def c4buf : PRB :=
  match PRB.add (fun x => x) (PRB.init 2) with
  | .ok b => b
  | .error _ => PRB.init 2

/-- C4 counterexample: on a store with one populated slot,
update_priorities([0, 5], [2.0, 3.0]) fails (index 5 is out of range) but
does NOT leave the state unchanged: the first pair has already been applied
to both trees and to max_priority when the assert fires, so the state the
exception leaves behind differs from the starting state. -/
theorem C4_counterexample :
    errState (PRB.updatePriorities (fun x => x) c4buf [0, 5] [2, 3]) ≠ some c4buf ∧
    errState (PRB.updatePriorities (fun x => x) c4buf [0, 5] [2, 3]) ≠ none := by
  constructor
  · with_unfolding_all decide
  · with_unfolding_all decide

/-- C4 amended: a length mismatch is checked before the loop and leaves the
state unchanged; but the per-pair asserts run inside the loop, interleaved
with the mutations, so a call whose first invalid pair is preceded by valid
pairs fully applies those valid pairs (both trees and max_priority) and then
fails, leaving that partial mutation in place; only a call whose pairs are
all valid is applied atomically in full. -/
theorem C4_update_priorities_amended (pa : ℚ → ℚ) (c : Nat) (b : PRB) (hwf : PWf b c)
    (idxes : List Int) (priorities : List ℚ) :
    (idxes.length ≠ priorities.length →
      PRB.updatePriorities pa b idxes priorities = .error ("LengthMismatch", b)) ∧
    (idxes.length = priorities.length →
      ((∀ x ∈ idxes.zip priorities, goodPair b.storageLen x) →
        PRB.updatePriorities pa b idxes priorities =
          .ok ((idxes.zip priorities).foldl (applyPair pa) b)) ∧
      (∀ (xs : List (Int × ℚ)) (bad : Int × ℚ) (ys : List (Int × ℚ)),
        idxes.zip priorities = xs ++ bad :: ys →
        (∀ x ∈ xs, goodPair b.storageLen x) → ¬ goodPair b.storageLen bad →
        errState (PRB.updatePriorities pa b idxes priorities) =
          some (xs.foldl (applyPair pa) b))) := by
  constructor
  · intro hne
    unfold PRB.updatePriorities
    rw [if_neg hne]
  · intro heq
    constructor
    · intro hgood
      unfold PRB.updatePriorities
      rw [if_pos heq]
      exact (updLoop_all_good pa c (idxes.zip priorities) b hwf hgood).1
    · intro xs bad ys hsplit hgood hbad
      unfold PRB.updatePriorities
      rw [if_pos heq, hsplit]
      obtain ⟨msg, hrun⟩ := updLoop_partial pa c xs b hwf hgood bad ys hbad
      rw [hrun]
      rfl

/-- Witness for the amended C4 on the concrete one-slot store: a length
mismatch leaves the state unchanged, and update_priorities([0, 5], [2, 3])
fails leaving exactly the first pair applied. -/
theorem C4_update_priorities_amended_witness :
    PRB.updatePriorities (fun x => x) c4buf [0] [] = .error ("LengthMismatch", c4buf) ∧
    errState (PRB.updatePriorities (fun x => x) c4buf [0, 5] [2, 3]) =
      some ([((0 : Int), (2 : ℚ))].foldl (applyPair (fun x => x)) c4buf) := by
  have hwf : PWf c4buf 1 := by with_unfolding_all decide
  constructor
  · exact (C4_update_priorities_amended (fun x => x) 1 c4buf hwf [0] []).1 (by decide)
  · exact ((C4_update_priorities_amended (fun x => x) 1 c4buf hwf [0, 5] [2, 3]).2
      (by decide)).2 [((0 : Int), (2 : ℚ))] ((5 : Int), (3 : ℚ)) [] (by with_unfolding_all decide)
      (by with_unfolding_all decide) (by with_unfolding_all decide)

/-- C6 (confirmed): _max_priority is 1.0 at construction; add captures the
cursor slot (the slot the base ReplayBuffer.add writes, since until the ring
wraps the append position equals the cursor and afterwards the overwrite
position is the cursor), runs the base insert, and sets BOTH trees at exactly
that slot to max_priority ** alpha — supplied as pa max_priority — leaving
every other leaf and max_priority itself unchanged; and a successful
update_priorities raises max_priority to the maximum of its old value and
all supplied priorities, making it the historical maximum of every priority
ever applied. -/
theorem C6_add_default_priority (pa : ℚ → ℚ) (c : Nat) (size : Nat) :
    (PRB.init size).maxPriority = 1 ∧
    (∀ b : PRB, PWf b c → ∃ b2 : PRB, PRB.add pa b = .ok b2 ∧
      b2.itSum.leafv b.nextIdx 0 = pa b.maxPriority ∧
      b2.itMin.leafv b.nextIdx ⊤ = ((pa b.maxPriority : ℚ) : WithTop ℚ) ∧
      (∀ j : Nat, j ≠ b.nextIdx → b2.itSum.leafv j 0 = b.itSum.leafv j 0) ∧
      (∀ j : Nat, j ≠ b.nextIdx → b2.itMin.leafv j ⊤ = b.itMin.leafv j ⊤) ∧
      b2.maxPriority = b.maxPriority) ∧
    (∀ (b : PRB) (pairs : List (Int × ℚ)), PWf b c →
      (∀ x ∈ pairs, goodPair b.storageLen x) →
      updLoop pa b pairs = .ok (pairs.foldl (applyPair pa) b) ∧
      (pairs.foldl (applyPair pa) b).maxPriority =
        pairs.foldl (fun m x => max m x.2) b.maxPriority) := by
  refine ⟨rfl, ?_, ?_⟩
  · intro b hwf
    obtain ⟨b2, hok, h1, h2, h3, h4, h5, -, -, -, -, -⟩ := add_facts pa b c hwf
    exact ⟨b2, hok, h1, h2, h3, h4, h5⟩
  · intro b pairs hwf hgood
    obtain ⟨h1, -, -, h4⟩ := updLoop_all_good pa c pairs b hwf hgood
    exact ⟨h1, h4⟩

/-- Witness for C6: adding to a fresh size-2 prioritized store writes
1 ** alpha = 1 into both trees at slot 0. -/
theorem C6_add_default_priority_witness :
    (PRB.init 2).maxPriority = 1 ∧
    (PRB.add (fun x => x) (PRB.init 2)).toOption.map
      (fun b2 => (b2.itSum.leafv 0 0, b2.itMin.leafv 0 ⊤)) =
      some ((1 : ℚ), ((1 : ℚ) : WithTop ℚ)) := by
  obtain ⟨b2, hok, h1, h2, -, -, -⟩ := (C6_add_default_priority (fun x => x) 1 2).2.1
    (PRB.init 2) (by with_unfolding_all decide)
  have h1b : b2.itSum.leafv 0 0 = 1 := h1
  have h2b : b2.itMin.leafv 0 ⊤ = ((1 : ℚ) : WithTop ℚ) := h2
  refine ⟨rfl, ?_⟩
  rw [hok]
  show some (b2.itSum.leafv 0 0, b2.itMin.leafv 0 ⊤) = _
  rw [h1b, h2b]

theorem leafSum_pos (t : SegTree ℚ) {L : Nat} (hL : 1 ≤ L)
    (hpos : ∀ i : Nat, i < L → 0 < t.leafv i 0) : 0 < leafSum t 0 L := by
  have hsplit : leafSum t 0 1 + leafSum t 1 L = leafSum t 0 L :=
    leafSum_consec t (by omega) (by omega)
  have h1 : leafSum t 0 1 = t.leafv 0 0 := by
    have := leafSum_single t 0
    simpa using this
  have h2 : 0 ≤ leafSum t 1 L := by
    refine Finset.sum_nonneg ?_
    intro i hi
    have := Finset.mem_Ico.mp hi
    exact le_of_lt (hpos i (by omega))
  have h3 := hpos 0 (by omega)
  linarith

theorem spLoop_ok (t : SegTree ℚ) (c : Nat) (hC : t.capacity = 2 ^ c)
    (hInv : SegTree.Inv (· + ·) 0 t)
    (hnn : ∀ i : Nat, i < 2 ^ c → 0 ≤ t.leafv i 0)
    (every : ℚ) (randoms : List ℚ) :
    ∀ n i : Nat,
      (∀ j : Nat, i ≤ j → j < i + n →
        0 ≤ randoms.getD j 0 * every + j * every ∧
        randoms.getD j 0 * every + j * every < leafSum t 0 (2 ^ c)) →
      ∃ rs : List Nat, spLoop t every randoms i n = some (.ok rs) ∧ rs.length = n ∧
        ∀ j : Nat, j < n → rs.getD j 0 < 2 ^ c ∧
          leafSum t 0 (rs.getD j 0) ≤ randoms.getD (i + j) 0 * every + (i + j) * every ∧
          randoms.getD (i + j) 0 * every + (i + j) * every <
            leafSum t 0 (rs.getD j 0 + 1) := by
  intro n
  induction n with
  | zero =>
    intro i _
    exact ⟨[], rfl, rfl, fun j hj => absurd hj (by omega)⟩
  | succ n ih =>
    intro i hmass
    obtain ⟨r, hfind, hrC, hb1, hb2⟩ := findPrefixSumIdx_eval t c hC hInv hnn _
      (hmass i (le_refl i) (by omega)).1 (hmass i (le_refl i) (by omega)).2
    obtain ⟨rs, hrun, hlen, hprops⟩ := ih (i + 1) (fun j hj1 hj2 => hmass j (by omega) (by omega))
    refine ⟨r :: rs, ?_, by simp [hlen], ?_⟩
    · rw [spLoop, hfind, hrun]
    · intro j hj
      cases j with
      | zero =>
        refine ⟨hrC, ?_, ?_⟩
        · simpa using hb1
        · simpa using hb2
      | succ j =>
        have h := hprops j (by omega)
        refine ⟨h.1, ?_, ?_⟩
        · have h21 := h.2.1
          rw [show i + 1 + j = i + (j + 1) by omega] at h21
          have hcast : (((i + 1 : Nat) : ℚ) + ((j : Nat) : ℚ)) =
              (((i : Nat) : ℚ) + (((j + 1 : Nat)) : ℚ)) := by push_cast; ring
          rw [hcast] at h21
          exact h21
        · have h22 := h.2.2
          rw [show i + 1 + j = i + (j + 1) by omega] at h22
          have hcast : (((i + 1 : Nat) : ℚ) + ((j : Nat) : ℚ)) =
              (((i : Nat) : ℚ) + (((j + 1 : Nat)) : ℚ)) := by push_cast; ring
          rw [hcast] at h22
          exact h22

theorem sampleProportional_facts (b : PRB) (c : Nat) (hwf : PWf b c)
    (hInv : SegTree.Inv (· + ·) 0 b.itSum)
    (hpos : ∀ i : Nat, i < b.storageLen → 0 < b.itSum.leafv i 0)
    (hzero : ∀ i : Nat, b.storageLen ≤ i → i < 2 ^ c → b.itSum.leafv i 0 = 0)
    (hL2 : 2 ≤ b.storageLen) (batch : Nat) (hbatch : 1 ≤ batch)
    (randoms : List ℚ)
    (hrand : ∀ i : Nat, i < batch → 0 ≤ randoms.getD i 0 ∧ randoms.getD i 0 < 1) :
    ∃ rs : List Nat, sampleProportional b batch randoms = some (.ok rs) ∧
      rs.length = batch ∧
      ∀ j : Nat, j < batch →
        (j : ℚ) * (leafSum b.itSum 0 (b.storageLen - 1) / batch) ≤
          randoms.getD j 0 * (leafSum b.itSum 0 (b.storageLen - 1) / batch) +
            j * (leafSum b.itSum 0 (b.storageLen - 1) / batch) ∧
        randoms.getD j 0 * (leafSum b.itSum 0 (b.storageLen - 1) / batch) +
            j * (leafSum b.itSum 0 (b.storageLen - 1) / batch) <
          ((j : ℚ) + 1) * (leafSum b.itSum 0 (b.storageLen - 1) / batch) ∧
        rs.getD j 0 + 1 < b.storageLen ∧
        leafSum b.itSum 0 (rs.getD j 0) ≤
          randoms.getD j 0 * (leafSum b.itSum 0 (b.storageLen - 1) / batch) +
            j * (leafSum b.itSum 0 (b.storageLen - 1) / batch) ∧
        randoms.getD j 0 * (leafSum b.itSum 0 (b.storageLen - 1) / batch) +
            j * (leafSum b.itSum 0 (b.storageLen - 1) / batch) <
          leafSum b.itSum 0 (rs.getD j 0 + 1) := by
  obtain ⟨hmax, hcap, hcapm, hsize, hlen, hlenm, hstor, hnext, hcursor⟩ := hwf
  have hnn : ∀ i : Nat, i < 2 ^ c → 0 ≤ b.itSum.leafv i 0 := by
    intro i hi
    rcases Nat.lt_or_ge i b.storageLen with h | h
    · exact le_of_lt (hpos i h)
    · rw [hzero i h hi]
  have hT : 0 < leafSum b.itSum 0 (b.storageLen - 1) :=
    leafSum_pos b.itSum (by omega) (fun i hi => hpos i (by omega))
  have hbq : (0 : ℚ) < batch := by exact_mod_cast hbatch
  have hevery : 0 < leafSum b.itSum 0 (b.storageLen - 1) / batch := by positivity
  have hTtot : leafSum b.itSum 0 (b.storageLen - 1) ≤ leafSum b.itSum 0 (2 ^ c) :=
    leafSum_mono b.itSum (by omega) (by omega) (le_refl _) hnn
  have hmassbound : ∀ j : Nat, j < batch →
      0 ≤ randoms.getD j 0 * (leafSum b.itSum 0 (b.storageLen - 1) / batch) +
        j * (leafSum b.itSum 0 (b.storageLen - 1) / batch) ∧
      randoms.getD j 0 * (leafSum b.itSum 0 (b.storageLen - 1) / batch) +
        j * (leafSum b.itSum 0 (b.storageLen - 1) / batch) <
        leafSum b.itSum 0 (2 ^ c) := by
    intro j hj
    obtain ⟨hr0, hr1⟩ := hrand j hj
    have hj0 : (0 : ℚ) ≤ (j : ℚ) := by positivity
    constructor
    · have h1 : 0 ≤ randoms.getD j 0 * (leafSum b.itSum 0 (b.storageLen - 1) / batch) :=
        mul_nonneg hr0 (le_of_lt hevery)
      have h2 : 0 ≤ (j : ℚ) * (leafSum b.itSum 0 (b.storageLen - 1) / batch) :=
        mul_nonneg hj0 (le_of_lt hevery)
      linarith
    · have hjb : (j : ℚ) + 1 ≤ (batch : ℚ) := by exact_mod_cast hj
      have h1 : randoms.getD j 0 * (leafSum b.itSum 0 (b.storageLen - 1) / batch) <
          1 * (leafSum b.itSum 0 (b.storageLen - 1) / batch) :=
        mul_lt_mul_of_pos_right hr1 hevery
      have h2 : ((j : ℚ) + 1) * (leafSum b.itSum 0 (b.storageLen - 1) / batch) ≤
          (batch : ℚ) * (leafSum b.itSum 0 (b.storageLen - 1) / batch) :=
        mul_le_mul_of_nonneg_right hjb (le_of_lt hevery)
      have h3 : (batch : ℚ) * (leafSum b.itSum 0 (b.storageLen - 1) / batch) =
          leafSum b.itSum 0 (b.storageLen - 1) := by
        field_simp
      nlinarith
  obtain ⟨rs, hrun, hlenrs, hprops⟩ := spLoop_ok b.itSum c hcap hInv hnn
    (leafSum b.itSum 0 (b.storageLen - 1) / batch) randoms batch 0
    (fun j hj1 hj2 => hmassbound j (by omega))
  have hred : SegTree.reduce (· + ·) 0 b.itSum 0 (some ((b.storageLen : Int) - 1)) =
      some (leafSum b.itSum 0 (b.storageLen - 1)) := by
    have h := reduce_sum_eval b.itSum c hcap hInv 0 (b.storageLen - 1) (by omega) (by omega)
    rw [Nat.cast_zero] at h
    rw [show ((b.storageLen : Int) - 1) = (((b.storageLen - 1 : Nat)) : Int) by omega]
    exact h
  refine ⟨rs, ?_, hlenrs, ?_⟩
  · unfold sampleProportional
    rw [hred]
    show (if batch = 0 then _ else spLoop b.itSum _ randoms 0 batch) = _
    rw [if_neg (by omega)]
    exact hrun
  · intro j hj
    obtain ⟨hrC, hb1, hb2⟩ := hprops j hj
    simp only [Nat.zero_add, Nat.cast_zero, zero_add] at hb1 hb2
    obtain ⟨hr0, hr1⟩ := hrand j hj
    have hstrata1 : (j : ℚ) * (leafSum b.itSum 0 (b.storageLen - 1) / batch) ≤
        randoms.getD j 0 * (leafSum b.itSum 0 (b.storageLen - 1) / batch) +
          j * (leafSum b.itSum 0 (b.storageLen - 1) / batch) := by
      have h1 : 0 ≤ randoms.getD j 0 * (leafSum b.itSum 0 (b.storageLen - 1) / batch) :=
        mul_nonneg hr0 (le_of_lt hevery)
      linarith
    have hstrata2 : randoms.getD j 0 * (leafSum b.itSum 0 (b.storageLen - 1) / batch) +
        j * (leafSum b.itSum 0 (b.storageLen - 1) / batch) <
        ((j : ℚ) + 1) * (leafSum b.itSum 0 (b.storageLen - 1) / batch) := by
      have h1 : randoms.getD j 0 * (leafSum b.itSum 0 (b.storageLen - 1) / batch) <
          1 * (leafSum b.itSum 0 (b.storageLen - 1) / batch) :=
        mul_lt_mul_of_pos_right hr1 hevery
      linarith
    refine ⟨hstrata1, hstrata2, ?_, hb1, hb2⟩
    by_contra hcon
    push_neg at hcon
    have hmono : leafSum b.itSum 0 (b.storageLen - 1) ≤ leafSum b.itSum 0 (rs.getD j 0) :=
      leafSum_mono b.itSum (by omega) (by omega) (by omega) hnn
    have hlast : randoms.getD j 0 * (leafSum b.itSum 0 (b.storageLen - 1) / batch) +
        j * (leafSum b.itSum 0 (b.storageLen - 1) / batch) <
        leafSum b.itSum 0 (b.storageLen - 1) := by
      have hjb : (j : ℚ) + 1 ≤ (batch : ℚ) := by exact_mod_cast hj
      have h1 : randoms.getD j 0 * (leafSum b.itSum 0 (b.storageLen - 1) / batch) <
          1 * (leafSum b.itSum 0 (b.storageLen - 1) / batch) :=
        mul_lt_mul_of_pos_right hr1 hevery
      have h2 : ((j : ℚ) + 1) * (leafSum b.itSum 0 (b.storageLen - 1) / batch) ≤
          (batch : ℚ) * (leafSum b.itSum 0 (b.storageLen - 1) / batch) :=
        mul_le_mul_of_nonneg_right hjb (le_of_lt hevery)
      have h3 : (batch : ℚ) * (leafSum b.itSum 0 (b.storageLen - 1) / batch) =
          leafSum b.itSum 0 (b.storageLen - 1) := by
        field_simp
      nlinarith
    linarith

deriving instance DecidableEq for Except

/-- C5 amended: _sample_proportional partitions [0, T') — where T' is the
total mass of only the FIRST len(_storage) - 1 populated slots, the query
sum(0, len - 1) having an exclusive upper bound — into batch_size equal
strata, places the point random_i * (T'/batch) + i * (T'/batch) inside
stratum i, and maps it through find_prefixsum_idx, which lands on the unique
slot bracketing the point; the last populated slot len - 1 is excluded from
the partition and is never sampled (and with exactly one populated slot the
range query does not terminate at all). -/
theorem C5_sample_proportional_amended (b : PRB) (c : Nat) (hwf : PWf b c)
    (hInv : SegTree.Inv (· + ·) 0 b.itSum)
    (hpos : ∀ i : Nat, i < b.storageLen → 0 < b.itSum.leafv i 0)
    (hzero : ∀ i : Nat, b.storageLen ≤ i → i < 2 ^ c → b.itSum.leafv i 0 = 0)
    (hL2 : 2 ≤ b.storageLen) (batch : Nat) (hbatch : 1 ≤ batch)
    (randoms : List ℚ)
    (hrand : ∀ i : Nat, i < batch → 0 ≤ randoms.getD i 0 ∧ randoms.getD i 0 < 1) :
    ∃ rs : List Nat, sampleProportional b batch randoms = some (.ok rs) ∧
      rs.length = batch ∧
      ∀ j : Nat, j < batch →
        (j : ℚ) * (leafSum b.itSum 0 (b.storageLen - 1) / batch) ≤
          randoms.getD j 0 * (leafSum b.itSum 0 (b.storageLen - 1) / batch) +
            j * (leafSum b.itSum 0 (b.storageLen - 1) / batch) ∧
        randoms.getD j 0 * (leafSum b.itSum 0 (b.storageLen - 1) / batch) +
            j * (leafSum b.itSum 0 (b.storageLen - 1) / batch) <
          ((j : ℚ) + 1) * (leafSum b.itSum 0 (b.storageLen - 1) / batch) ∧
        rs.getD j 0 + 1 < b.storageLen ∧
        leafSum b.itSum 0 (rs.getD j 0) ≤
          randoms.getD j 0 * (leafSum b.itSum 0 (b.storageLen - 1) / batch) +
            j * (leafSum b.itSum 0 (b.storageLen - 1) / batch) ∧
        randoms.getD j 0 * (leafSum b.itSum 0 (b.storageLen - 1) / batch) +
            j * (leafSum b.itSum 0 (b.storageLen - 1) / batch) <
          leafSum b.itSum 0 (rs.getD j 0 + 1) :=
  sampleProportional_facts b c hwf hInv hpos hzero hL2 batch hbatch randoms hrand

/-- The concrete store used for C5 and C7: tree capacity 2, two populated
slots with priority masses 1 and 2, consistent sum and min trees, cursor 0. -/
def c5buf : PRB :=
  ⟨2, 2, 0, ⟨2, [0, 3, 1, 2]⟩,
    ⟨2, [⊤, ((1 : ℚ) : WithTop ℚ), ((1 : ℚ) : WithTop ℚ), ((2 : ℚ) : WithTop ℚ)]⟩, 1⟩

/-- C5 counterexample: on a store with two populated slots of masses 1 and 2,
the claim says sampling partitions [0, 3) (the mass of ALL populated slots),
so the stratified point for random draw 1/2 is 3/2, which belongs to slot 1;
but _sample_proportional computes p_total = sum(0, len-1) = 1 (slot 1 is
excluded by the exclusive bound), the point becomes 1/2, and slot 0 is
returned: the code disagrees with the claimed partition. -/
theorem C5_counterexample :
    sampleProportional c5buf 1 [1 / 2] = some (.ok [0]) ∧
    specSampleProportional c5buf 1 [1 / 2] = some (.ok [1]) ∧
    ((some (.ok [0]) : Option (Except String (List Nat))) ≠ some (.ok [1])) := by
  refine ⟨?_, ?_, by decide⟩
  · with_unfolding_all decide
  · with_unfolding_all decide

/-- Witness for the amended C5: on the same store, the amended description
pins the sampled index list to [0]. -/
theorem C5_sample_proportional_amended_witness :
    sampleProportional c5buf 1 [1 / 2] = some (.ok [0]) := by
  obtain ⟨rs, hs, hlen, hprops⟩ := C5_sample_proportional_amended c5buf 1
    (by with_unfolding_all decide) (by with_unfolding_all decide)
    (by with_unfolding_all decide)
    (by
      intro i h1 h2
      exfalso
      have hsl : c5buf.storageLen = 2 := rfl
      norm_num at h2
      omega)
    (by decide) 1 (by norm_num) [1 / 2] (by with_unfolding_all decide)
  obtain ⟨a, rfl⟩ := List.length_eq_one.mp hlen
  have h0 := hprops 0 (by norm_num)
  have ha : a = 0 := by
    have h3 : a + 1 < c5buf.storageLen := h0.2.2.1
    have hsl : c5buf.storageLen = 2 := rfl
    omega
  subst ha
  exact hs

theorem tmin_eq_min (a b : WithTop ℚ) : tmin a b = min a b := by
  unfold tmin
  rcases lt_or_ge b a with h | h
  · rw [if_pos h, min_eq_right (le_of_lt h)]
  · rw [if_neg (not_lt_of_ge h), min_eq_left h]

theorem tmin_assoc (x y z : WithTop ℚ) : tmin (tmin x y) z = tmin x (tmin y z) := by
  simp only [tmin_eq_min]
  exact min_assoc x y z

theorem tmin_top_left (x : WithTop ℚ) : tmin ⊤ x = x := by
  simp only [tmin_eq_min]
  exact min_eq_right le_top

theorem tmin_top_right (x : WithTop ℚ) : tmin x ⊤ = x := by
  simp only [tmin_eq_min]
  exact min_eq_left le_top

theorem foldl_tmin_mem : ∀ (l : List (WithTop ℚ)) (i : WithTop ℚ),
    List.foldl tmin i l ∈ i :: l := by
  intro l
  induction l with
  | nil => intro i; exact List.mem_cons_self i []
  | cons y ys ih =>
    intro i
    simp only [List.foldl_cons]
    rcases List.mem_cons.mp (ih (tmin i y)) with h1 | h1
    · rw [h1]
      unfold tmin
      by_cases h2 : y < i
      · rw [if_pos h2]
        exact List.mem_cons_of_mem i (List.mem_cons_self y ys)
      · rw [if_neg h2]
        exact List.mem_cons_self i (y :: ys)
    · exact List.mem_cons_of_mem i (List.mem_cons_of_mem y h1)

theorem foldl_tmin_le : ∀ (l : List (WithTop ℚ)) (i : WithTop ℚ),
    List.foldl tmin i l ≤ i ∧ ∀ x ∈ l, List.foldl tmin i l ≤ x := by
  intro l
  induction l with
  | nil =>
    intro i
    exact ⟨le_refl i, fun x hx => absurd hx (List.not_mem_nil x)⟩
  | cons y ys ih =>
    intro i
    obtain ⟨hlei, hle⟩ := ih (tmin i y)
    have h1 : tmin i y ≤ i ∧ tmin i y ≤ y := by
      unfold tmin
      rcases lt_or_ge y i with h | h
      · rw [if_pos h]
        exact ⟨le_of_lt h, le_refl y⟩
      · rw [if_neg (not_lt_of_ge h)]
        exact ⟨le_refl i, h⟩
    simp only [List.foldl_cons]
    refine ⟨le_trans hlei h1.1, ?_⟩
    intro x hx
    rcases List.mem_cons.mp hx with h2 | h2
    · rw [h2]
      exact le_trans hlei h1.2
    · exact hle x h2

theorem min_root_facts (b : PRB) (c : Nat)
    (hcapm : b.itMin.capacity = 2 ^ c)
    (hInvM : SegTree.Inv tmin ⊤ b.itMin)
    (hL1 : 1 ≤ b.storageLen) (hLcap : b.storageLen ≤ 2 ^ c)
    (hcouple : ∀ i : Nat, i < b.storageLen →
      b.itMin.leafv i ⊤ = ((b.itSum.leafv i 0 : ℚ) : WithTop ℚ))
    (hcoupletop : ∀ i : Nat, b.storageLen ≤ i → i < 2 ^ c → b.itMin.leafv i ⊤ = ⊤) :
    ∃ pm : ℚ, getv b.itMin.value 1 ⊤ = ((pm : ℚ) : WithTop ℚ) ∧
      (∃ i0 : Nat, i0 < b.storageLen ∧ b.itSum.leafv i0 0 = pm) ∧
      (∀ i : Nat, i < b.storageLen → pm ≤ b.itSum.leafv i 0) := by
  have hcap1 : 1 ≤ 2 ^ c := Nat.one_le_pow c 2 (by norm_num)
  have hroot := subtree_fold tmin ⊤ ⊤ tmin_assoc tmin_top_left tmin_top_right b.itMin c
    hcapm hInvM c (le_refl c) 1 (by omega) (by omega)
  have hroot2 : getv b.itMin.value 1 ⊤ =
      List.foldl tmin ⊤ ((List.range (2 ^ c)).map (fun i => b.itMin.leafv (0 + i) ⊤)) := by
    simpa [leavesFold] using hroot
  set L := (List.range (2 ^ c)).map (fun i => b.itMin.leafv (0 + i) ⊤) with hLdef
  have hmem := foldl_tmin_mem L ⊤
  have hfle := foldl_tmin_le L ⊤
  have hleaf0 : b.itMin.leafv 0 ⊤ ∈ L := by
    rw [hLdef]
    refine List.mem_map.mpr ⟨0, List.mem_range.mpr (by omega), by simp⟩
  have hne_top : List.foldl tmin ⊤ L ≠ ⊤ := by
    intro htop
    have h1 := hfle.2 _ hleaf0
    rw [htop, hcouple 0 (by omega)] at h1
    exact absurd (top_le_iff.mp h1) (by simp)
  rcases List.mem_cons.mp hmem with h1 | h1
  · exact absurd h1 hne_top
  · rw [hLdef] at h1
    obtain ⟨i, hirange, hival⟩ := List.mem_map.mp h1
    have hi : i < 2 ^ c := List.mem_range.mp hirange
    rw [Nat.zero_add] at hival
    have hipop : i < b.storageLen := by
      by_contra hcon
      push_neg at hcon
      rw [hcoupletop i hcon hi] at hival
      exact hne_top hival.symm
    rw [hcouple i hipop] at hival
    rw [← hLdef] at hival
    refine ⟨b.itSum.leafv i 0, by rw [hroot2, hival], ⟨i, hipop, rfl⟩, ?_⟩
    intro j hj
    have h2 := hfle.2 (b.itMin.leafv j ⊤) (by
      rw [hLdef]
      refine List.mem_map.mpr ⟨j, List.mem_range.mpr (by omega), by simp⟩)
    rw [← hival, hcouple j hj] at h2
    exact_mod_cast h2

/-- C7 (confirmed): whenever sample(batch_size) returns a batch of weights —
on a store with consistent coupled trees, at least one populated slot with a
strictly positive mass, and an importance exponentiation x ** (-beta) that is
positive and antitone on positive arguments (beta >= 0) — every returned
importance weight lies in (0, 1], and whenever the batch contains a slot
whose priority mass is the global minimum over populated slots some weight
equals exactly 1, so the batch maximum is exactly 1.  (The claim is vacuous
for a call that does not return: with exactly one populated slot the range
sum inside _sample_proportional never terminates.) -/
theorem C7_sample_weights (wexp : ℚ → ℚ) (b : PRB) (c : Nat) (hwf : PWf b c)
    (hInvS : SegTree.Inv (· + ·) 0 b.itSum) (hInvM : SegTree.Inv tmin ⊤ b.itMin)
    (hpos : ∀ i : Nat, i < b.storageLen → 0 < b.itSum.leafv i 0)
    (hzero : ∀ i : Nat, b.storageLen ≤ i → i < 2 ^ c → b.itSum.leafv i 0 = 0)
    (hcouple : ∀ i : Nat, i < b.storageLen →
      b.itMin.leafv i ⊤ = ((b.itSum.leafv i 0 : ℚ) : WithTop ℚ))
    (hcoupletop : ∀ i : Nat, b.storageLen ≤ i → i < 2 ^ c → b.itMin.leafv i ⊤ = ⊤)
    (hL1 : 1 ≤ b.storageLen)
    (hwpos : ∀ x : ℚ, 0 < x → 0 < wexp x)
    (hwanti : ∀ x y : ℚ, 0 < x → x ≤ y → wexp y ≤ wexp x)
    (batch : Nat) (randoms : List ℚ)
    (hrand : ∀ i : Nat, i < batch → 0 ≤ randoms.getD i 0 ∧ randoms.getD i 0 < 1) :
    ∀ out : SampleOut, PRB.sample wexp b batch randoms = some (.ok out) →
      (∀ w ∈ out.weights, 0 < w ∧ w ≤ 1) ∧
      ((∃ j ∈ out.idxes, ∀ i : Nat, i < b.storageLen →
          b.itSum.leafv j 0 ≤ b.itSum.leafv i 0) → ∃ w ∈ out.weights, w = 1) := by
  obtain ⟨hmax, hcap, hcapm, hsize, hlen, hlenm, hstor, hnext, hcursor⟩ := hwf
  have hcap1 : 1 ≤ 2 ^ c := Nat.one_le_pow c 2 (by norm_num)
  intro out hout
  rcases Nat.lt_or_ge b.storageLen 2 with hL2 | hL2
  · exfalso
    have hLeq : b.storageLen = 1 := by omega
    have hbridge : (2 : Int) ^ c = ((2 ^ c : Nat) : Int) := by push_cast; ring
    have hnone : SegTree.reduce (· + ·) 0 b.itSum 0
        (some ((b.storageLen : Int) - 1)) = none :=
      reduce_empty_eval (· + ·) 0 b.itSum c hcap 0 ((b.storageLen : Int) - 1)
        (by omega) (by omega) (by omega)
    have hsp : sampleProportional b batch randoms = none := by
      unfold sampleProportional
      rw [hnone]
    have hnone2 : PRB.sample wexp b batch randoms = none := by
      unfold PRB.sample
      rw [hsp]
    rw [hnone2] at hout
    exact Option.noConfusion hout
  · rcases Nat.eq_zero_or_pos batch with hb0 | hb1
    · exfalso
      subst hb0
      have hred : SegTree.reduce (· + ·) 0 b.itSum 0 (some ((b.storageLen : Int) - 1)) =
          some (leafSum b.itSum 0 (b.storageLen - 1)) := by
        have h := reduce_sum_eval b.itSum c hcap hInvS 0 (b.storageLen - 1) (by omega) (by omega)
        rw [Nat.cast_zero] at h
        rw [show ((b.storageLen : Int) - 1) = (((b.storageLen - 1 : Nat)) : Int) by omega]
        exact h
      have hsp : sampleProportional b 0 randoms = some (.error "ZeroDivisionError") := by
        unfold sampleProportional
        rw [hred]
        rfl
      have hbad : PRB.sample wexp b 0 randoms = some (.error "ZeroDivisionError") := by
        unfold PRB.sample
        rw [hsp]
      rw [hbad] at hout
      exact Except.noConfusion (Option.some.inj hout)
    · have hwf' : PWf b c := ⟨hmax, hcap, hcapm, hsize, hlen, hlenm, hstor, hnext, hcursor⟩
      obtain ⟨rs, hsp, hlenrs, hprops⟩ := sampleProportional_facts b c hwf' hInvS hpos hzero
        hL2 batch hb1 randoms hrand
      have hnn : ∀ i : Nat, i < 2 ^ c → 0 ≤ b.itSum.leafv i 0 := by
        intro i hi
        rcases Nat.lt_or_ge i b.storageLen with h | h
        · exact le_of_lt (hpos i h)
        · rw [hzero i h hi]
      have hidxlt : ∀ idx ∈ rs, idx + 1 < b.storageLen := by
        intro idx hidx
        obtain ⟨j, hj, hval⟩ := List.mem_iff_getElem.mp hidx
        have hp := (hprops j (by omega)).2.2.1
        rw [List.getD_eq_getElem rs 0 (by omega)] at hp
        rw [hval] at hp
        exact hp
      have hmem' : ∀ idx ∈ rs, idx < b.itSum.capacity := by
        intro idx hidx
        have := hidxlt idx hidx
        rw [hcap]
        omega
      obtain ⟨pm, hpmroot, ⟨i0, hi0L, hi0val⟩, hpmle⟩ :=
        min_root_facts b c hcapm hInvM hL1 (by omega) hcouple hcoupletop
      have hpmpos : 0 < pm := by rw [← hi0val]; exact hpos i0 hi0L
      have htot : getv b.itSum.value 1 0 = leafSum b.itSum 0 (2 ^ c) := by
        have h := subtree_sum b.itSum c hcap hInvS c (le_refl c) 1 (by omega) (by omega)
        simpa using h
      have hTpos : 0 < getv b.itSum.value 1 0 := by
        rw [htot]
        exact lt_of_lt_of_le (leafSum_pos b.itSum hL1 (fun i hi => hpos i hi))
          (leafSum_mono b.itSum (by omega) (by omega) (le_refl _) hnn)
      have hLq : (0 : ℚ) < (b.storageLen : ℚ) := by exact_mod_cast hL1
      have hBpos : 0 < pm / getv b.itSum.value 1 0 * (b.storageLen : ℚ) :=
        mul_pos (div_pos hpmpos hTpos) hLq
      have hwBpos : 0 < wexp (pm / getv b.itSum.value 1 0 * (b.storageLen : ℚ)) :=
        hwpos _ hBpos
      have hABle : ∀ idx : Nat, idx < b.storageLen →
          pm / getv b.itSum.value 1 0 * (b.storageLen : ℚ) ≤
            getv b.itSum.value (b.itSum.capacity + idx) 0 / getv b.itSum.value 1 0 *
              (b.storageLen : ℚ) := by
        intro idx hidxL
        have hle : pm ≤ getv b.itSum.value (b.itSum.capacity + idx) 0 := hpmle idx hidxL
        exact mul_le_mul_of_nonneg_right
          ((div_le_div_iff_of_pos_right hTpos).mpr hle) (le_of_lt hLq)
      have hsample : PRB.sample wexp b batch randoms =
          some (.ok ⟨rs.map (fun idx =>
              wexp ((getv b.itSum.value (b.itSum.capacity + idx) 0 /
                  getv b.itSum.value 1 0) * (b.storageLen : ℚ)) /
                wexp ((pm / getv b.itSum.value 1 0) * (b.storageLen : ℚ))), rs⟩) := by
        unfold PRB.sample
        rw [hsp, reduce_default_root (· + ·) 0 b.itSum,
          reduce_default_root tmin ⊤ b.itMin, hpmroot]
        show (if ∀ idx ∈ rs, idx < b.itSum.capacity then _ else _) = _
        rw [if_pos hmem']
      rw [hsample] at hout
      simp only [Option.some.injEq, Except.ok.injEq] at hout
      subst hout
      constructor
      · intro w hw
        obtain ⟨idx, hidxmem, rfl⟩ := List.mem_map.mp hw
        have hidxL : idx < b.storageLen := by have := hidxlt idx hidxmem; omega
        have hAB := hABle idx hidxL
        have hwApos : 0 < wexp (getv b.itSum.value (b.itSum.capacity + idx) 0 /
            getv b.itSum.value 1 0 * (b.storageLen : ℚ)) :=
          hwpos _ (lt_of_lt_of_le hBpos hAB)
        have hwAB : wexp (getv b.itSum.value (b.itSum.capacity + idx) 0 /
            getv b.itSum.value 1 0 * (b.storageLen : ℚ)) ≤
            wexp (pm / getv b.itSum.value 1 0 * (b.storageLen : ℚ)) :=
          hwanti _ _ hBpos hAB
        exact ⟨div_pos hwApos hwBpos, (div_le_one hwBpos).mpr hwAB⟩
      · rintro ⟨j0, hj0mem, hj0min⟩
        have hj0mem' : j0 ∈ rs := hj0mem
        have hj0L : j0 < b.storageLen := by have := hidxlt j0 hj0mem'; omega
        have heq : getv b.itSum.value (b.itSum.capacity + j0) 0 = pm :=
          le_antisymm (by rw [← hi0val]; exact hj0min i0 hi0L) (hpmle j0 hj0L)
        refine ⟨wexp ((pm / getv b.itSum.value 1 0) * (b.storageLen : ℚ)) /
          wexp ((pm / getv b.itSum.value 1 0) * (b.storageLen : ℚ)), ?_,
          div_self (ne_of_gt hwBpos)⟩
        exact List.mem_map.mpr ⟨j0, hj0mem', by rw [heq]⟩

/-- Witness for C7: on the two-slot store with masses 1 and 2 and
beta-exponentiation x ** (-1) = 1/x, sampling one batch draws slot 0 (the
global minimum), and its weight is exactly 1 — positive, at most 1, and
attaining 1. -/
theorem C7_sample_weights_witness :
    PRB.sample (fun x => 1 / x) c5buf 1 [1 / 2] =
      some (.ok ⟨[1], [0]⟩) ∧
    (∀ w ∈ (SampleOut.mk [1] [0]).weights, 0 < w ∧ w ≤ 1) ∧
    (∃ w ∈ (SampleOut.mk [1] [0]).weights, w = 1) := by
  have hout : PRB.sample (fun x => 1 / x) c5buf 1 [1 / 2] =
      some (.ok ⟨[1], [0]⟩) := by with_unfolding_all decide
  have h := C7_sample_weights (fun x => 1 / x) c5buf 1
    (by with_unfolding_all decide) (by with_unfolding_all decide)
    (by with_unfolding_all decide) (by with_unfolding_all decide)
    (by with_unfolding_all decide) (by with_unfolding_all decide)
    (by with_unfolding_all decide) (by decide)
    (fun x hx => one_div_pos.mpr hx)
    (fun x y hx hxy => one_div_le_one_div_of_le hx hxy)
    1 [1 / 2] (by with_unfolding_all decide)
    ⟨[1], [0]⟩ hout
  exact ⟨hout, h.1, h.2 (by with_unfolding_all decide)⟩

theorem maskStep_length (m : List ℚ) : (maskStep m).length = m.length := by
  cases m with
  | nil => rfl
  | cons x xs =>
    simp only [maskStep, List.length_cons, List.length_zipWith]
    omega

theorem maskIter_length (dones : List ℚ) : ∀ j : Nat,
    (maskIter dones j).length = dones.length + 1 := by
  intro j
  induction j with
  | zero => simp [maskIter, mask0]
  | succ j ih =>
    show (maskStep (maskIter dones j)).length = _
    rw [maskStep_length, ih]

theorem maskStep_getD (m : List ℚ) (t : Nat) (h : t + 1 < m.length) :
    (maskStep m).getD (t + 1) 0 = m.getD (t + 1) 0 * m.getD t 0 := by
  cases m with
  | nil => simp at h
  | cons x xs =>
    have ht : t < xs.length := by simpa using h
    have hz : t < (List.zipWith (· * ·) xs (x :: xs)).length := by
      rw [List.length_zipWith]
      simp
      omega
    show (List.zipWith (· * ·) xs (x :: xs)).getD t 0 = _
    rw [List.getD_eq_getElem _ _ hz, List.getElem_zipWith]
    rw [show ((x :: xs).getD (t + 1) 0) = xs.getD t 0 from rfl]
    rw [List.getD_eq_getElem xs 0 ht,
      List.getD_eq_getElem (x :: xs) 0 (show t < (x :: xs).length by simp; omega)]

theorem mask0_getD (dones : List ℚ) (u : Nat) (hu : u < dones.length) :
    (mask0 dones).getD (u + 1) 0 = 1 - dones.getD u 0 := by
  show (dones.map (fun x => 1 - x)).getD u 0 = _
  rw [List.getD_eq_getElem _ _ (by simpa using hu), List.getElem_map,
    List.getD_eq_getElem _ _ hu]

theorem maskIter_zero (dones : List ℚ) (u : Nat) (hu : u < dones.length)
    (hdone : dones.getD u 0 = 1) :
    ∀ j t : Nat, u + 1 ≤ t → t ≤ u + 1 + j → t < dones.length + 1 →
      (maskIter dones j).getD t 0 = 0 := by
  intro j
  induction j with
  | zero =>
    intro t h1 h2 h3
    have ht : t = u + 1 := by omega
    subst ht
    show (mask0 dones).getD (u + 1) 0 = 0
    rw [mask0_getD dones u hu, hdone]
    ring
  | succ j ih =>
    intro t h1 h2 h3
    obtain ⟨t2, rfl⟩ : ∃ t2, t = t2 + 1 := ⟨t - 1, by omega⟩
    have hlen : t2 + 1 < (maskIter dones j).length := by
      rw [maskIter_length]
      omega
    show (maskStep (maskIter dones j)).getD (t2 + 1) 0 = 0
    rw [maskStep_getD _ _ hlen]
    rcases le_or_lt (t2 + 1) (u + 1 + j) with hc | hc
    · rw [ih (t2 + 1) h1 hc (by omega)]
      ring
    · rw [ih t2 (by omega) (by omega) (by omega)]
      ring

theorem chanFrames_length (nsteps : Nat) (enc : List ℚ) (i : Nat) :
    (chanFrames nsteps enc i).length = nsteps + 1 := by
  simp [chanFrames]

theorem downLoop_stack (nstack nsteps : Nat) (enc dones : List ℚ) :
    ∀ (k : Nat) (s : StackSt), k ≤ nstack - 1 → s.obs.length = nstack →
      s.mask = maskIter dones (nstack - 1 - k) →
      ∀ i : Nat,
        (downLoop (stackStep nstack nsteps enc) k s).obs.getD i [] =
          if i < k then
            List.zipWith (· * ·) (chanFrames nsteps enc i)
              (maskIter dones (nstack - 2 - i))
          else s.obs.getD i [] := by
  intro k
  induction k with
  | zero =>
    intro s hk hlen hmask i
    rw [if_neg (by omega)]
    rfl
  | succ k ih =>
    intro s hk hlen hmask i
    have hstep : stackStep nstack nsteps enc s k =
        { obs := s.obs.set k (List.zipWith (· * ·) (chanFrames nsteps enc k) s.mask),
          mask := maskStep s.mask } := by
      unfold stackStep
      rw [if_pos (by omega)]
    show (downLoop (stackStep nstack nsteps enc) k
      (stackStep nstack nsteps enc s k)).obs.getD i [] = _
    rw [hstep]
    have hres := ih
      { obs := s.obs.set k (List.zipWith (· * ·) (chanFrames nsteps enc k) s.mask),
        mask := maskStep s.mask }
      (by omega) (by simp [List.length_set, hlen])
      (by
        show maskStep s.mask = maskIter dones (nstack - 1 - k)
        rw [hmask, show nstack - 1 - k = (nstack - 1 - (k + 1)) + 1 from by omega]
        rfl) i
    rw [hres]
    by_cases hik : i < k
    · rw [if_pos hik, if_pos (by omega)]
    · rw [if_neg hik]
      by_cases hik1 : i < k + 1
      · have hie : i = k := by omega
        subst hie
        rw [if_pos (by omega)]
        calc (s.obs.set i (List.zipWith (· * ·) (chanFrames nsteps enc i) s.mask)).getD i []
            = List.zipWith (· * ·) (chanFrames nsteps enc i) s.mask :=
              getv_set_self (by omega)
          _ = List.zipWith (· * ·) (chanFrames nsteps enc i)
                (maskIter dones (nstack - 2 - i)) := by
              rw [hmask, show nstack - 1 - (i + 1) = nstack - 2 - i from by omega]
      · rw [if_neg (by omega)]
        exact getv_set_ne (by omega)

theorem stackObs_channels (nstack nsteps : Nat) (enc dones : List ℚ)
    (h1 : 1 ≤ nstack) :
    (stackObs nstack nsteps enc dones).getD (nstack - 1) [] =
      chanFrames nsteps enc (nstack - 1) ∧
    ∀ i : Nat, i < nstack - 1 →
      (stackObs nstack nsteps enc dones).getD i [] =
        List.zipWith (· * ·) (chanFrames nsteps enc i)
          (maskIter dones (nstack - 2 - i)) := by
  obtain ⟨m, rfl⟩ : ∃ m, nstack = m + 1 := ⟨nstack - 1, by omega⟩
  have hstep : stackStep (m + 1) nsteps enc ⟨List.replicate (m + 1) [], mask0 dones⟩ m =
      ⟨(List.replicate (m + 1) ([] : List ℚ)).set m (chanFrames nsteps enc m),
        mask0 dones⟩ := by
    unfold stackStep
    rw [if_neg (by omega)]
  have hobs : stackObs (m + 1) nsteps enc dones =
      (downLoop (stackStep (m + 1) nsteps enc) m
        ⟨(List.replicate (m + 1) ([] : List ℚ)).set m (chanFrames nsteps enc m),
          mask0 dones⟩).obs := by
    show (downLoop (stackStep (m + 1) nsteps enc) m
      (stackStep (m + 1) nsteps enc ⟨List.replicate (m + 1) [], mask0 dones⟩ m)).obs = _
    rw [hstep]
  have hds := downLoop_stack (m + 1) nsteps enc dones m
    ⟨(List.replicate (m + 1) ([] : List ℚ)).set m (chanFrames nsteps enc m), mask0 dones⟩
    (by omega) (by simp)
    (by
      show mask0 dones = maskIter dones (m + 1 - 1 - m)
      rw [show m + 1 - 1 - m = 0 from by omega]
      rfl)
  constructor
  · rw [hobs, hds (m + 1 - 1), if_neg (by omega)]
    exact getv_set_self (by simp)
  · intro i hi
    rw [hobs, hds i, if_pos (by omega)]

/-- C9 counterexample: with nstack = 2, nsteps = 2, all-one frames and
dones = [1, 0], the channel older than the newest comes out as [1, 0, 1]:
the mask actually applied is the windowed product, which recovers to 1 at
step 2 (a new episode has started and the 1-step-old frame belongs to it).
The claimed cumulative recurrence mask[t] = mask[t-1] * (1 - done[t-1])
stays 0 forever once a done is seen, so the channel the claim predicts is
[1, 0, 0]: the claimed mask law does not hold in the code. -/
theorem C9_counterexample :
    (stackObs 2 2 [1, 1, 1, 1] [1, 0]).getD 0 [] = [1, 0, 1] ∧
    List.zipWith (· * ·) (chanFrames 2 [1, 1, 1, 1] 0)
      ((List.range 3).map (specCumMask [1, 0])) = [1, 0, 0] ∧
    (([1, 0, 1] : List ℚ) ≠ [1, 0, 0]) := by
  refine ⟨?_, ?_, by decide⟩
  · with_unfolding_all decide
  · with_unfolding_all decide

/-- C9 amended: _stack_obs assigns channel nstack-1 (the newest) the raw
frame slice enc_obs[nstack-1 : nstack-1+nsteps+1]; every older channel i is
the frame slice multiplied elementwise by the running mask after
nstack-2-i in-place updates mask[1:] *= mask[:-1].  Because the NumPy update
reads the pre-update values simultaneously, the mask is NOT the claimed
cumulative recurrence mask[t] = mask[t-1] * (1 - done[t-1]): it satisfies
the simultaneous law m_(j+1)[t+1] = m_j[t+1] * m_j[t] and forgets a done
after a window of steps.  The window is exactly the stack depth, so the
claim's no-leakage consequence does hold: channel i at step t is zeroed
whenever a termination done[u] = 1 lies in the window u+1 <= t <=
u + (nstack-1-i), i.e. whenever the frame it shows predates the
termination while the step is at or after it. -/
theorem C9_stack_obs_amended (nstack nsteps : Nat) (enc dones : List ℚ)
    (hns : 1 ≤ nstack) (hd : dones.length = nsteps) :
    (stackObs nstack nsteps enc dones).getD (nstack - 1) [] =
      chanFrames nsteps enc (nstack - 1) ∧
    (∀ i : Nat, i < nstack - 1 →
      (stackObs nstack nsteps enc dones).getD i [] =
        List.zipWith (· * ·) (chanFrames nsteps enc i)
          (maskIter dones (nstack - 2 - i))) ∧
    (∀ j t : Nat, t + 1 ≤ nsteps →
      (maskIter dones (j + 1)).getD (t + 1) 0 =
        (maskIter dones j).getD (t + 1) 0 * (maskIter dones j).getD t 0) ∧
    (∀ i u t : Nat, i < nstack - 1 → u < nsteps → dones.getD u 0 = 1 →
      u + 1 ≤ t → t ≤ u + (nstack - 1 - i) → t ≤ nsteps →
      ((stackObs nstack nsteps enc dones).getD i []).getD t 0 = 0) := by
  obtain ⟨hnew, hold⟩ := stackObs_channels nstack nsteps enc dones hns
  refine ⟨hnew, hold, ?_, ?_⟩
  · intro j t ht
    show (maskStep (maskIter dones j)).getD (t + 1) 0 = _
    exact maskStep_getD _ _ (by rw [maskIter_length]; omega)
  · intro i u t hi hu hdone h1 h2 h3
    rw [hold i hi]
    have hz : t < (List.zipWith (· * ·) (chanFrames nsteps enc i)
        (maskIter dones (nstack - 2 - i))).length := by
      rw [List.length_zipWith, chanFrames_length, maskIter_length]
      omega
    rw [List.getD_eq_getElem _ _ hz, List.getElem_zipWith]
    have hmz : (maskIter dones (nstack - 2 - i)).getD t 0 = 0 :=
      maskIter_zero dones u (by omega) hdone (nstack - 2 - i) t h1 (by omega) (by omega)
    rw [← List.getD_eq_getElem (maskIter dones (nstack - 2 - i)) 0
      (by rw [maskIter_length]; omega), hmz]
    ring

/-- Witness for the amended C9: in the concrete run of the counterexample,
the termination done[0] = 1 zeroes the older channel at step 1. -/
theorem C9_stack_obs_amended_witness :
    ((stackObs 2 2 [1, 1, 1, 1] [1, 0]).getD 0 []).getD 1 0 = 0 :=
  (C9_stack_obs_amended 2 2 [1, 1, 1, 1] [1, 0] (by decide) (by decide)).2.2.2
    0 0 1 (by decide) (by decide) (by with_unfolding_all decide)
    (by decide) (by decide) (by decide)

end ReplayBuffer
